import Mathlib

/-!
Shallow embedding of `src/excitation_signal.py` (class `ExcitationSignal`).

Modelling choices:
* numpy float arrays are modelled as `List ℚ` for the purely rational
  stamp/index/amplitude computations and as `List ℝ` / `List ℂ` for the
  signal pipeline (inverse DFT needs `Real.cos`).
* `np.random.rand` is modelled by an explicit stream of draws passed as a
  function argument; each feasibility-search attempt consumes one vector
  of draws.
* The unbounded rejection-sampling `while` loop receives explicit fuel;
  running out of fuel is a distinguished error, as is the
  `UnboundLocalError` the Python code raises when the loop body never ran,
  and the NaN/Inf outcome of normalizing an identically-zero signal.
-/

set_option autoImplicit false

namespace ExcitationSignal

/-- Embeds `get_sampling_interval`: `df = f / N`. -/
def get_sampling_interval (f : ℚ) (N : ℕ) : ℚ := f / N

/-- Embeds `get_total_time`: `T = 1 / df`. -/
def get_total_time (df : ℚ) : ℚ := 1 / df

/-- Embeds `get_time_stamp`: `np.arange(0, N) / f`, i.e. `t[i] = i / f`. -/
def get_time_stamp (f : ℚ) (N : ℕ) : List ℚ :=
  (List.range N).map (fun i : ℕ => (i : ℚ) / f)

/-- Embeds `get_freq_stamp`: `np.arange(0, N) / N * f`, i.e. `f[i] = i / N * f`. -/
def get_freq_stamp (f : ℚ) (N : ℕ) : List ℚ :=
  (List.range N).map (fun i : ℕ => (i : ℚ) / N * f)

/-- Embeds `np.where(xs == v)[0][0]`: the first index of `xs` holding `v`,
`none` when `v` is absent (numpy raises `IndexError` there). -/
def whereFirst (v : ℚ) : List ℚ → Option ℕ
  | [] => none
  | x :: xs => if x = v then some 0 else (whereFirst v xs).map (· + 1)

/-- Embeds `get_freq_index`: the pair of first indices of the two band
endpoints in the frequency stamp; `none` when either endpoint is absent. -/
def get_freq_index (freq_range : ℚ × ℚ) (f_stamp : List ℚ) : Option (ℕ × ℕ) :=
  match whereFirst freq_range.1 f_stamp, whereFirst freq_range.2 f_stamp with
  | some i, some j => some (i, j)
  | _, _ => none

/-- Embeds the numpy slice assignment `U_amp[np.arange(lo, hi + 1)] = v`:
positions `i` of `xs` with `lo ≤ j + i ≤ hi` are overwritten by `v`
(`j` is the index of the head of `xs` in the original array). -/
def assignRange {α : Type} (v : α) (lo hi : ℕ) : ℕ → List α → List α
  | _, [] => []
  | j, x :: xs => (if lo ≤ j ∧ j ≤ hi then v else x) :: assignRange v lo hi (j + 1) xs

/-- Embeds `_get_frequency_amplitude`: start from `np.zeros(N)`, assign
`amp` on the inclusive index range `idx`, then force the DC entry `U_amp[0]`
back to `0`.  Polymorphic in the scalar so the same definition serves the
rational and the real pipeline. -/
def _get_frequency_amplitude {α : Type} [Zero α] (N : ℕ) (amp : α) (idx : ℕ × ℕ) : List α :=
  (assignRange amp idx.1 idx.2 0 (List.replicate N 0)).set 0 0

/-- Embeds `get_repeat_signals`: `np.tile(u, (1, 1, p))` repeats every
innermost (time) row `p` times back to back, and `reshape(nr_inputs, -1)`
flattens the trial and time axes of each channel. -/
def get_repeat_signals {α : Type} (u : List (List (List α))) (p : ℕ) : List (List α) :=
  u.map (fun ch => (ch.map (fun sig => (List.replicate p sig).flatten)).flatten)

noncomputable section

open Real
open scoped Classical

/-- Embeds `_get_random_phase`: `np.random.rand(N) * 2 * np.pi`, with the
underlying `rand` draws (each meant to lie in `[0, 1)`) supplied as an
explicit stream. -/
def _get_random_phase (N : ℕ) (rand : ℕ → ℝ) : List ℝ :=
  (List.range N).map (fun i => rand i * 2 * π)

/-- Embeds `_get_complex_signal`: `U_amp * np.exp(1j * U_phase)`, elementwise. -/
def _get_complex_signal (U_amp U_phase : List ℝ) : List ℂ :=
  List.zipWith (fun (a x : ℝ) => (a : ℂ) * Complex.exp (Complex.I * x)) U_amp U_phase

/-- Embeds `np.fft.ifft`: `x[n] = (1/N) * Σ_k U[k] * exp(2πi·k·n/N)`. -/
def ifft (U : List ℂ) : List ℂ :=
  (List.range U.length).map (fun n : ℕ =>
    (U.length : ℂ)⁻¹ * ∑ k ∈ Finset.range U.length,
      U.getD k 0 * Complex.exp (2 * (π : ℂ) * Complex.I * k * n / U.length))

/-- Embeds `get_time_signal`: `np.real(np.fft.ifft(U))`. -/
def get_time_signal (U : List ℂ) : List ℝ := (ifft U).map Complex.re

/-- Embeds `np.max(np.abs(u))` (with value `0` for the empty array, on which
numpy would raise). -/
def npMaxAbs (u : List ℝ) : ℝ := u.foldl (fun a x => max a |x|) 0

/-- Embeds `_get_normalization`: `u / np.max(np.abs(u))`.  When the maximum
is zero the numpy division yields NaN/Inf (`RuntimeWarning`); that non-finite
outcome is modelled as `none`. -/
def _get_normalization (u : List ℝ) : Option (List ℝ) :=
  if npMaxAbs u = 0 then none else some (u.map (fun x => x / npMaxAbs u))

/-- Embeds `get_frequency_signal`: deterministic amplitude, fresh random
phase, complex spectrum `U = U_amp * exp(1j * U_phase)`. -/
def get_frequency_signal (N : ℕ) (amp : ℝ) (idx : ℕ × ℕ) (rand : ℕ → ℝ) :
    List ℂ × List ℝ × List ℝ :=
  let U_amp := _get_frequency_amplitude N amp idx
  let U_phase := _get_random_phase N rand
  (_get_complex_signal U_amp U_phase, U_amp, U_phase)

/-- Failure modes of the modelled pipeline: the `UnboundLocalError` that
`get_one_feasible_signal` raises when its loop body never ran, the NaN/Inf
outcome of a degenerate normalization, and exhaustion of the explicit fuel
bounding the source's unbounded `while` loop. -/
inductive SigErr : Type
  | unboundLocal
  | degenerate
  | noFuel
deriving DecidableEq

/-- Embeds `np.abs(u[0] - u[1])`. -/
def diffOf (u : List ℝ) : ℝ := |u.getD 0 0 - u.getD 1 0|

/-- Embeds the `while diff > self.eps` loop of `get_one_feasible_signal`:
`diff` is the current difference, `acc` the most recently drawn
`(U_amp, U_phase)` (`none` before the first iteration, when those Python
locals are unbound), `k` the attempt counter indexing the random stream,
`fuel` the explicit bound on the unbounded source loop. -/
def feasGo (eps : ℝ) (N : ℕ) (amp : ℝ) (idx : ℕ × ℕ) (rand : ℕ → ℕ → ℝ) :
    ℕ → ℕ → ℝ → Option (List ℝ × List ℝ) → Except SigErr (List ℝ × List ℝ)
  | 0, _, diff, acc =>
      if diff > eps then .error .noFuel
      else
        match acc with
        | none => .error .unboundLocal
        | some r => .ok r
  | fuel + 1, k, diff, acc =>
      if diff > eps then
        let s := get_frequency_signal N amp idx (rand k)
        match _get_normalization (get_time_signal s.1) with
        | none => .error .degenerate
        | some u => feasGo eps N amp idx rand fuel (k + 1) (diffOf u) (some (s.2.1, s.2.2))
      else
        match acc with
        | none => .error .unboundLocal
        | some r => .ok r

/-- Embeds `get_one_feasible_signal`: `diff` starts at the sentinel `1000.0`
and no `(U_amp, U_phase)` pair is bound before the first iteration. -/
def get_one_feasible_signal (eps : ℝ) (N : ℕ) (amp : ℝ) (idx : ℕ × ℕ)
    (rand : ℕ → ℕ → ℝ) (fuel : ℕ) : Except SigErr (List ℝ × List ℝ) :=
  feasGo eps N amp idx rand fuel 0 1000 none

/-- The number of synthesis attempts (loop-body executions) performed by
`get_one_feasible_signal`, truncated at `fuel`; same recursion as `feasGo`. -/
def feasAttempts (eps : ℝ) (N : ℕ) (amp : ℝ) (idx : ℕ × ℕ) (rand : ℕ → ℕ → ℝ) :
    ℕ → ℕ → ℝ → ℕ
  | 0, _, _ => 0
  | fuel + 1, k, diff =>
      if diff > eps then
        let s := get_frequency_signal N amp idx (rand k)
        match _get_normalization (get_time_signal s.1) with
        | none => 1
        | some u => 1 + feasAttempts eps N amp idx rand fuel (k + 1) (diffOf u)
      else 0

/-- Attempt count of `get_one_feasible_signal`, starting from the sentinel. -/
def get_one_feasible_attempts (eps : ℝ) (N : ℕ) (amp : ℝ) (idx : ℕ × ℕ)
    (rand : ℕ → ℕ → ℝ) (fuel : ℕ) : ℕ :=
  feasAttempts eps N amp idx rand fuel 0 1000

/-- Sequences optional per-channel results: `some` of the list exactly when
every entry is `some`. -/
def seqOpt {α : Type} : List (Option α) → Option (List α)
  | [] => some []
  | none :: _ => none
  | some x :: xs => (seqOpt xs).map (x :: ·)

/-- Sequences per-channel `Except` results, keeping the first error (a raised
exception aborts the whole Python call). -/
def seqExcept {ε α : Type} : List (Except ε α) → Except ε (List α)
  | [] => .ok []
  | .error e :: _ => .error e
  | .ok x :: xs =>
      match seqExcept xs with
      | .error e => .error e
      | .ok l => .ok (x :: l)

/-- Embeds `get_signals`.  In `'orthogonal'` mode one feasibility search (on
stream `rand 0`) yields the base pair; channel `i` reuses the base amplitude
and adds the phase shift `2π·i/nr_inputs` elementwise, then rebuilds and
normalizes its time signal.  In `'random'` mode every channel runs its own
feasibility search on its own stream.  Any other mode returns the zero
matrices the source initialized.  Results are returned as the three
`nr_inputs × N` row lists `(U_amp, U_phase, u)`. -/
def get_signals (eps : ℝ) (N : ℕ) (amp : ℝ) (nr_inputs : ℕ) (idx : ℕ × ℕ)
    (mode : String) (rand : ℕ → ℕ → ℕ → ℝ) (fuel : ℕ) :
    Except SigErr (List (List ℝ) × List (List ℝ) × List (List ℝ)) :=
  if mode = "orthogonal" then
    match get_one_feasible_signal eps N amp idx (rand 0) fuel with
    | .error e => .error e
    | .ok base =>
        match seqOpt ((List.range nr_inputs).map (fun i : ℕ =>
          (_get_normalization (get_time_signal (_get_complex_signal base.1
              (base.2.map (fun x => x + 2 * π * i / nr_inputs))))).map
            (fun u => (base.1, base.2.map (fun x => x + 2 * π * i / nr_inputs), u)))) with
        | none => .error .degenerate
        | some rows =>
            .ok (rows.map (fun r => r.1), rows.map (fun r => r.2.1),
                 rows.map (fun r => r.2.2))
  else if mode = "random" then
    match seqExcept ((List.range nr_inputs).map (fun i =>
      match get_one_feasible_signal eps N amp idx (rand i) fuel with
      | .error e => Except.error e
      | .ok pair =>
          match _get_normalization (get_time_signal (_get_complex_signal pair.1 pair.2)) with
          | none => Except.error SigErr.degenerate
          | some u => Except.ok (pair.1, pair.2, u))) with
    | .error e => .error e
    | .ok rows =>
        .ok (rows.map (fun r => r.1), rows.map (fun r => r.2.1),
             rows.map (fun r => r.2.2))
  else
    .ok (List.replicate nr_inputs (List.replicate N 0),
         List.replicate nr_inputs (List.replicate N 0),
         List.replicate nr_inputs (List.replicate N 0))

/-- Embeds `get_multi_signals`: run `get_signals` once per trial (trial `i`
drawing from `rand i`), assemble the channel-major arrays built by the numpy
slice assignments `U_amp[:, i, :] = ...`, and tile with
`get_repeat_signals`. -/
def get_multi_signals (eps : ℝ) (N : ℕ) (amp : ℝ) (idx : ℕ × ℕ)
    (m p nr_inputs : ℕ) (mode : String) (rand : ℕ → ℕ → ℕ → ℕ → ℝ) (fuel : ℕ) :
    Except SigErr
      (List (List (List ℝ)) × List (List (List ℝ)) × List (List (List ℝ)) ×
       List (List ℝ)) :=
  match seqExcept ((List.range m).map (fun i =>
      get_signals eps N amp nr_inputs idx mode (rand i) fuel)) with
  | .error e => .error e
  | .ok ts =>
      .ok ((List.range nr_inputs).map (fun c => ts.map (fun t => t.1.getD c [])),
           (List.range nr_inputs).map (fun c => ts.map (fun t => t.2.1.getD c [])),
           (List.range nr_inputs).map (fun c => ts.map (fun t => t.2.2.getD c [])),
           get_repeat_signals
             ((List.range nr_inputs).map (fun c => ts.map (fun t => t.2.2.getD c []))) p)

/-- Projection used to state properties of an accepted `get_signals` result:
its time-domain matrix, `none` on error. -/
def acceptedU
    (r : Except SigErr (List (List ℝ) × List (List ℝ) × List (List ℝ))) :
    Option (List (List ℝ)) :=
  match r with
  | .ok t => some t.2.2
  | .error _ => none

end

open Real

/-! ## Helper lemmas -/

theorem whereFirst_some {v : ℚ} {xs : List ℚ} {i : ℕ}
    (h : whereFirst v xs = some i) : i < xs.length ∧ xs.getD i 0 = v := by
  induction xs generalizing i with
  | nil => simp [whereFirst] at h
  | cons x xs ih =>
    rw [whereFirst] at h
    by_cases hx : x = v
    · rw [if_pos hx] at h
      obtain rfl : (0 : ℕ) = i := by simpa using h
      simpa using hx
    · rw [if_neg hx] at h
      obtain ⟨j, hj, rfl⟩ := Option.map_eq_some'.mp h
      obtain ⟨h1, h2⟩ := ih hj
      exact ⟨by simpa using Nat.succ_lt_succ h1, by simpa using h2⟩

theorem whereFirst_eq_none {v : ℚ} {xs : List ℚ} (h : v ∉ xs) :
    whereFirst v xs = none := by
  induction xs with
  | nil => rfl
  | cons x xs ih =>
    rw [whereFirst, if_neg (fun hx => h (by rw [← hx]; exact List.mem_cons_self x xs)),
      ih (fun hv => h (List.mem_cons_of_mem x hv))]
    rfl

theorem getD_map_range {α : Type} (g : ℕ → α) (d : α) {N i : ℕ} (h : i < N) :
    ((List.range N).map g).getD i d = g i := by
  rw [List.getD_eq_getElem _ _ (by simp [h])]
  simp

theorem assignRange_length {α : Type} (v : α) (lo hi : ℕ) :
    ∀ (j : ℕ) (xs : List α), (assignRange v lo hi j xs).length = xs.length := by
  intro j xs
  induction xs generalizing j with
  | nil => rfl
  | cons x xs ih => simp [assignRange, ih]

theorem assignRange_getD {α : Type} (v d : α) (lo hi : ℕ) :
    ∀ (j : ℕ) (xs : List α) (i : ℕ), i < xs.length →
      (assignRange v lo hi j xs).getD i d =
        if lo ≤ j + i ∧ j + i ≤ hi then v else xs.getD i d := by
  intro j xs
  induction xs generalizing j with
  | nil => intro i hi; simp at hi
  | cons x xs ih =>
    intro i hi
    cases i with
    | zero => simp [assignRange]
    | succ n =>
      have hn : n < xs.length := by simpa using hi
      simp only [assignRange, List.getD_cons_succ]
      rw [ih (j + 1) n hn]
      have harith : j + 1 + n = j + (n + 1) := by omega
      rw [harith]

/-! ## C4: exact-match frequency lookup -/

/-- C4: `get_freq_index` returns only indices at which the frequency stamp
holds the requested endpoint exactly, and it fails (rather than returning an
index) whenever either endpoint is absent from the stamp. -/
theorem get_freq_index_exact (freq_range : ℚ × ℚ) (f_stamp : List ℚ) :
    (∀ i j, get_freq_index freq_range f_stamp = some (i, j) →
      f_stamp.getD i 0 = freq_range.1 ∧ f_stamp.getD j 0 = freq_range.2) ∧
    ((freq_range.1 ∉ f_stamp ∨ freq_range.2 ∉ f_stamp) →
      get_freq_index freq_range f_stamp = none) := by
  constructor
  · intro i j h
    unfold get_freq_index at h
    cases h1 : whereFirst freq_range.1 f_stamp with
    | none => rw [h1] at h; simp at h
    | some a =>
      cases h2 : whereFirst freq_range.2 f_stamp with
      | none => rw [h1, h2] at h; simp at h
      | some b =>
        rw [h1, h2] at h
        obtain ⟨rfl, rfl⟩ : a = i ∧ b = j := by simpa using h
        exact ⟨(whereFirst_some h1).2, (whereFirst_some h2).2⟩
  · rintro (h | h)
    · unfold get_freq_index
      rw [whereFirst_eq_none h]
    · unfold get_freq_index
      rw [whereFirst_eq_none h]
      cases whereFirst freq_range.1 f_stamp <;> rfl

/-- Witness for C4 at the stamp `[0, 1, 2]`: endpoints `(1, 2)` are found at
their exact positions, and the absent endpoint `5` makes the lookup fail. -/
theorem get_freq_index_exact_witness :
    (([(0 : ℚ), 1, 2].getD 1 0 = ((1 : ℚ), (2 : ℚ)).1 ∧
      [(0 : ℚ), 1, 2].getD 2 0 = ((1 : ℚ), (2 : ℚ)).2)) ∧
    get_freq_index ((5 : ℚ), 1) [0, 1, 2] = none :=
  ⟨(get_freq_index_exact (1, 2) [0, 1, 2]).1 1 2 (by decide),
   (get_freq_index_exact (5, 1) [0, 1, 2]).2 (Or.inl (by decide))⟩

/-! ## C7: stamp formulas -/

/-- C7: for positive sampling frequency `f` and point count `N`, the derived
scalars satisfy `df = f/N` and `T = 1/df`, and the stamps satisfy
`f_stamp[i] = i*(f/N)` and `t_stamp[i] = i/f` for every `i < N`. -/
theorem stamps_spec (f : ℚ) (N : ℕ) (hf : 0 < f) (hN : 0 < N) :
    get_sampling_interval f N = f / N ∧
    get_total_time (get_sampling_interval f N) = 1 / get_sampling_interval f N ∧
    ∀ i, i < N →
      (get_freq_stamp f N).getD i 0 = i * (f / N) ∧
      (get_time_stamp f N).getD i 0 = i / f := by
  refine ⟨rfl, rfl, fun i hi => ⟨?_, ?_⟩⟩
  · rw [get_freq_stamp, getD_map_range _ _ hi]
    ring
  · rw [get_time_stamp, getD_map_range _ _ hi]

/-- Witness for C7 at `f = 100`, `N = 4`. -/
theorem stamps_spec_witness :
    get_sampling_interval 100 4 = (100 : ℚ) / 4 ∧
    get_total_time (get_sampling_interval 100 4) = 1 / get_sampling_interval 100 4 ∧
    ∀ i, i < 4 →
      (get_freq_stamp 100 4).getD i 0 = i * ((100 : ℚ) / 4) ∧
      (get_time_stamp 100 4).getD i 0 = i / (100 : ℚ) :=
  stamps_spec 100 4 (by norm_num) (by norm_num)

/-! ## C6: frequency-domain amplitude -/

/-- C6: for `idx.1 ≤ idx.2 < N` the amplitude array has length `N`, is `0`
at index `0`, equals `amp` on the inclusive band minus index `0`, and is `0`
elsewhere.  Determinism across feasibility attempts is structural: the
embedding is a pure function of `(N, amp, idx)` alone. -/
theorem frequency_amplitude_spec (N : ℕ) (amp : ℚ) (idx : ℕ × ℕ)
    (h1 : idx.1 ≤ idx.2) (h2 : idx.2 < N) :
    (_get_frequency_amplitude N amp idx).length = N ∧
    (_get_frequency_amplitude N amp idx).getD 0 0 = 0 ∧
    (∀ i, i < N → i ≠ 0 → idx.1 ≤ i → i ≤ idx.2 →
      (_get_frequency_amplitude N amp idx).getD i 0 = amp) ∧
    (∀ i, i < N → ¬(idx.1 ≤ i ∧ i ≤ idx.2) →
      (_get_frequency_amplitude N amp idx).getD i 0 = 0) := by
  have hlen : (_get_frequency_amplitude N amp idx).length = N := by
    simp [_get_frequency_amplitude, assignRange_length]
  refine ⟨hlen, ?_, ?_, ?_⟩
  · unfold _get_frequency_amplitude
    cases hL : assignRange amp idx.1 idx.2 0 (List.replicate N (0 : ℚ)) with
    | nil => rfl
    | cons y ys => rfl
  · intro i hiN hi0 hlo hhi
    have hiL : i < (assignRange amp idx.1 idx.2 0 (List.replicate N (0 : ℚ))).length := by
      simpa [assignRange_length] using hiN
    unfold _get_frequency_amplitude
    rw [List.getD_eq_getElem _ _ (by simpa using hiL), List.getElem_set_ne (by omega)]
    rw [← List.getD_eq_getElem _ (0 : ℚ) hiL,
      assignRange_getD amp 0 idx.1 idx.2 0 _ i (by simpa using hiN)]
    simp [hlo, hhi]
  · intro i hiN hout
    have hiL : i < (assignRange amp idx.1 idx.2 0 (List.replicate N (0 : ℚ))).length := by
      simpa [assignRange_length] using hiN
    unfold _get_frequency_amplitude
    by_cases hi0 : i = 0
    · subst hi0
      cases hL : assignRange amp idx.1 idx.2 0 (List.replicate N (0 : ℚ)) with
      | nil => rfl
      | cons y ys => rfl
    · rw [List.getD_eq_getElem _ _ (by simpa using hiL), List.getElem_set_ne (by omega)]
      rw [← List.getD_eq_getElem _ (0 : ℚ) hiL,
        assignRange_getD amp 0 idx.1 idx.2 0 _ i (by simpa using hiN)]
      simp only [Nat.zero_add]
      rw [if_neg hout, List.getD_eq_getElem _ _ (by simpa using hiN)]
      simp

/-- Witness for C6 at `N = 5`, `amp = 7`, `idx = (1, 3)`. -/
theorem frequency_amplitude_spec_witness :
    (_get_frequency_amplitude 5 (7 : ℚ) (1, 3)).length = 5 ∧
    (_get_frequency_amplitude 5 (7 : ℚ) (1, 3)).getD 0 0 = 0 ∧
    (∀ i, i < 5 → i ≠ 0 → (1, 3).1 ≤ i → i ≤ (1, 3).2 →
      (_get_frequency_amplitude 5 (7 : ℚ) (1, 3)).getD i 0 = 7) ∧
    (∀ i, i < 5 → ¬((1, 3).1 ≤ i ∧ i ≤ (1, 3).2) →
      (_get_frequency_amplitude 5 (7 : ℚ) (1, 3)).getD i 0 = 0) :=
  frequency_amplitude_spec 5 7 (1, 3) (by decide) (by decide)

/-! ## C9: frequency-band index pair -/

theorem get_freq_stamp_lt (f : ℚ) (N : ℕ) (hf : 0 < f) {i j : ℕ}
    (hij : i < j) (hj : j < N) :
    (get_freq_stamp f N).getD i 0 < (get_freq_stamp f N).getD j 0 := by
  rw [get_freq_stamp, getD_map_range _ _ (lt_trans hij hj), getD_map_range _ _ hj]
  have hN : (0 : ℚ) < N := by
    have : 0 < N := lt_of_le_of_lt (Nat.zero_le j) hj
    exact_mod_cast this
  have hij' : (i : ℚ) < j := by exact_mod_cast hij
  gcongr

theorem stamp_ten : get_freq_stamp 10 10 = [0, 1, 2, 3, 4, 5, 6, 7, 8, 9] := by
  norm_num [get_freq_stamp, List.range_succ]

/-- C9 counterexample: the synthesizer accepts `freq_range = (5, 5)` with
`f = 10`, `N = 10` (both endpoints are exactly present in the stamp), yet the
computed index pair is `(5, 5)`, violating `idx_lo < idx_hi`. -/
theorem freq_index_pair_counterexample :
    get_freq_index ((5 : ℚ), 5) (get_freq_stamp 10 10) = some (5, 5) ∧
    ¬ (5 < 5) := by
  constructor
  · rw [stamp_ten]
    norm_num [get_freq_index, whereFirst]
  · decide

/-- C9 (amended): after a successful construction whose band additionally
satisfies `f_lo < f_hi`, the index pair satisfies `idx_lo < idx_hi` with both
indices in `[0, N)`.  (Without `f_lo < f_hi` the claim fails, see the
counterexample: equal endpoints are accepted and give `idx_lo = idx_hi`.) -/
theorem freq_index_pair_spec (f : ℚ) (N : ℕ) (fr : ℚ × ℚ) (hf : 0 < f)
    (hlt : fr.1 < fr.2) (i j : ℕ)
    (h : get_freq_index fr (get_freq_stamp f N) = some (i, j)) :
    i < j ∧ i < N ∧ j < N := by
  unfold get_freq_index at h
  cases h1 : whereFirst fr.1 (get_freq_stamp f N) with
  | none => rw [h1] at h; simp at h
  | some a =>
    cases h2 : whereFirst fr.2 (get_freq_stamp f N) with
    | none => rw [h1, h2] at h; simp at h
    | some b =>
      rw [h1, h2] at h
      obtain ⟨ha, hb⟩ : a = i ∧ b = j := by simpa using h
      obtain ⟨hiL, hiv⟩ := whereFirst_some h1
      obtain ⟨hjL, hjv⟩ := whereFirst_some h2
      have hlen : (get_freq_stamp f N).length = N := by simp [get_freq_stamp]
      rw [hlen] at hiL hjL
      rw [← ha, ← hb]
      refine ⟨?_, hiL, hjL⟩
      rcases lt_trichotomy a b with hab | hab | hab
      · exact hab
      · exfalso
        rw [hab, hjv] at hiv
        exact absurd hiv (ne_of_gt hlt)
      · exfalso
        have := get_freq_stamp_lt f N hf hab hiL
        rw [hiv, hjv] at this
        exact absurd hlt (not_lt.mpr (le_of_lt this))

/-- Witness for the amended C9 at `f = 10`, `N = 10`, band `(2, 5)`. -/
theorem freq_index_pair_spec_witness :
    (0 : ℚ) < 10 ∧ ((2 : ℚ), (5 : ℚ)).1 < ((2 : ℚ), (5 : ℚ)).2 ∧
    (2 < 5 ∧ 2 < 10 ∧ 5 < 10) :=
  ⟨by norm_num, by norm_num,
    freq_index_pair_spec 10 10 (2, 5) (by norm_num) (by norm_num) 2 5 (by
      rw [stamp_ten]
      norm_num [get_freq_index, whereFirst])⟩

/-! ## C3: repeated multi-trial sequence -/

theorem sum_map_uniform {α : Type} (l : List α) (g : α → ℕ) (b : ℕ)
    (h : ∀ x ∈ l, g x = b) : (l.map g).sum = l.length * b := by
  induction l with
  | nil => simp
  | cons x xs ih =>
    have hx := h x (List.mem_cons_self x xs)
    have hxs := ih (fun y hy => h y (List.mem_cons_of_mem x hy))
    simp only [List.map_cons, List.sum_cons, hx, hxs, List.length_cons]
    ring

theorem length_flatten_replicate {α : Type} (p : ℕ) (s : List α) :
    (List.replicate p s).flatten.length = p * s.length := by
  rw [List.length_flatten,
    sum_map_uniform _ _ s.length (fun x hx => by rw [List.eq_of_mem_replicate hx]),
    List.length_replicate]

theorem flatten_uniform_drop {α : Type} {B : ℕ} :
    ∀ (j : ℕ) (L : List (List α)), (∀ l ∈ L, l.length = B) → j ≤ L.length →
      L.flatten.drop (j * B) = (L.drop j).flatten := by
  intro j
  induction j with
  | zero => intro L _ _; simp
  | succ n ih =>
    intro L hB hj
    cases L with
    | nil => simp at hj
    | cons x xs =>
      have hx : x.length = B := hB x (List.mem_cons_self x xs)
      have harith : (n + 1) * B = x.length + n * B := by rw [hx]; ring
      rw [List.flatten_cons, harith, List.drop_append,
        ih xs (fun l hl => hB l (List.mem_cons_of_mem x hl)) (by simpa using hj)]
      simp

theorem flatten_uniform_extract {α : Type} {B : ℕ} {L : List (List α)} {j : ℕ}
    (hB : ∀ l ∈ L, l.length = B) (hj : j < L.length) :
    (L.flatten.drop (j * B)).take B = L.getD j [] := by
  rw [flatten_uniform_drop j L hB (le_of_lt hj), List.drop_eq_getElem_cons hj,
    List.flatten_cons, List.getD_eq_getElem _ _ hj]
  exact List.take_left' (hB _ (List.getElem_mem hj))

/-- C3: for a `(nr_inputs, m, N)`-shaped time-signal bank and `p ≥ 1`, each
channel of `get_repeat_signals` has final-axis length `m*p*N` and the block
starting at `j*p*N + k*N` equals trial `j`'s signal of that channel, for
every trial `j < m` and repeat index `k < p`. -/
theorem repeat_signals_spec {m p N : ℕ} (u : List (List (List ℚ))) (c j k : ℕ)
    (hm : ∀ ch ∈ u, ch.length = m) (hN : ∀ ch ∈ u, ∀ s ∈ ch, s.length = N)
    (hp : 1 ≤ p) (hc : c < u.length) (hj : j < m) (hk : k < p) :
    ((get_repeat_signals u p).getD c []).length = m * p * N ∧
    (((get_repeat_signals u p).getD c []).drop (j * p * N + k * N)).take N =
      (u.getD c []).getD j [] := by
  have hch : u.getD c [] ∈ u := by
    rw [List.getD_eq_getElem _ _ hc]
    exact List.getElem_mem hc
  have hchlen : (u.getD c []).length = m := hm _ hch
  have hrow : (get_repeat_signals u p).getD c [] =
      ((u.getD c []).map (fun sig => (List.replicate p sig).flatten)).flatten := by
    rw [get_repeat_signals, List.getD_eq_getElem _ _ (by simpa using hc),
      List.getElem_map, List.getD_eq_getElem _ _ hc]
  have hg : ∀ l ∈ (u.getD c []).map (fun sig => (List.replicate p sig).flatten),
      l.length = p * N := by
    intro l hl
    obtain ⟨s, hs, rfl⟩ := List.mem_map.mp hl
    rw [length_flatten_replicate, hN _ hch s hs]
  constructor
  · rw [hrow, List.length_flatten, sum_map_uniform _ _ (p * N) ?uni,
      List.length_map, hchlen, ← Nat.mul_assoc]
    case uni => intro x hx; exact hg x hx
  · have hjc : j < (u.getD c []).length := by rw [hchlen]; exact hj
    have hjlen : j < ((u.getD c []).map (fun sig => (List.replicate p sig).flatten)).length := by
      rw [List.length_map, hchlen]; exact hj
    have hs : (u.getD c []).getD j [] ∈ u.getD c [] := by
      rw [List.getD_eq_getElem _ _ hjc]
      exact List.getElem_mem hjc
    have hsN : ((u.getD c []).getD j []).length = N := hN _ hch _ hs
    have harith : j * p * N + k * N = j * (p * N) + k * N := by ring
    have hget : (u.getD c [])[j] = (u.getD c []).getD j [] :=
      (List.getD_eq_getElem _ _ hjc).symm
    rw [hrow, harith, ← List.drop_drop,
      flatten_uniform_drop j _ hg (le_of_lt hjlen),
      List.drop_eq_getElem_cons hjlen, List.flatten_cons, List.getElem_map, hget]
    have hkN : k * N ≤ ((List.replicate p ((u.getD c []).getD j [])).flatten).length := by
      rw [length_flatten_replicate, hsN]
      exact Nat.mul_le_mul_right N (le_of_lt hk)
    rw [List.drop_append_of_le_length hkN]
    have htake : N ≤ (((List.replicate p ((u.getD c []).getD j [])).flatten).drop (k * N)).length := by
      rw [List.length_drop, length_flatten_replicate, hsN]
      have hk1 : (k + 1) * N ≤ p * N := Nat.mul_le_mul_right N (Nat.succ_le_of_lt hk)
      have hk2 : k * N + N ≤ p * N := by rw [← Nat.succ_mul]; exact hk1
      omega
    rw [List.take_append_of_le_length htake]
    have hrep : ∀ l ∈ List.replicate p ((u.getD c []).getD j []), l.length = N := by
      intro l hl
      rw [List.eq_of_mem_replicate hl, hsN]
    have := flatten_uniform_extract hrep (by simpa using hk)
    rw [this, List.getD_eq_getElem _ _ (by simpa using hk)]
    simp

/-- Witness for C3 on the concrete bank `[[[1, 2], [3, 4]]]` with
`m = 2`, `N = 2`, `p = 2`, channel `0`, trial `1`, repeat index `1`. -/
theorem repeat_signals_spec_witness :
    ((get_repeat_signals [[[ (1 : ℚ), 2], [3, 4]]] 2).getD 0 []).length = 2 * 2 * 2 ∧
    (((get_repeat_signals [[[ (1 : ℚ), 2], [3, 4]]] 2).getD 0 []).drop
        (1 * 2 * 2 + 1 * 2)).take 2 =
      (([[[ (1 : ℚ), 2], [3, 4]]].getD 0 []).getD 1 []) :=
  repeat_signals_spec [[[ (1 : ℚ), 2], [3, 4]]] 0 1 1
    (by decide) (by decide) (by decide) (by decide) (by decide) (by decide)

/-! ## C10: sentinel of the rejection-sampling loop -/

/-- C10: with tolerance `eps ≥ 1000` the sentinel `diff = 1000.0` already
fails the `diff > eps` test, so the loop body of `get_one_feasible_signal`
never runs and the call fails with the unbound-local error instead of
returning an accepted pair; with `eps < 1000` (and any fuel at all) at least
one synthesis attempt is always made. -/
theorem feasible_sentinel_spec (eps : ℝ) (N : ℕ) (amp : ℝ) (idx : ℕ × ℕ)
    (rand : ℕ → ℕ → ℝ) (fuel : ℕ) :
    (1000 ≤ eps →
      get_one_feasible_signal eps N amp idx rand fuel =
        Except.error SigErr.unboundLocal) ∧
    (eps < 1000 → 1 ≤ fuel →
      1 ≤ get_one_feasible_attempts eps N amp idx rand fuel) := by
  constructor
  · intro h
    have hno : ¬ ((1000 : ℝ) > eps) := not_lt.mpr h
    unfold get_one_feasible_signal
    cases fuel with
    | zero => simp [feasGo, hno]
    | succ n => simp [feasGo, hno]
  · intro h hf
    have hyes : (1000 : ℝ) > eps := h
    obtain ⟨n, rfl⟩ : ∃ n, fuel = n + 1 := ⟨fuel - 1, by omega⟩
    unfold get_one_feasible_attempts
    rw [feasAttempts]
    simp only [if_pos hyes]
    cases h2 : _get_normalization
        (get_time_signal (get_frequency_signal N amp idx (rand 0)).1) with
    | none => simp [h2]
    | some w => simp [h2]

/-- Witness for C10: at `eps = 1000` the call errors with the unbound-local
failure; at `eps = 500` with fuel `1` at least one attempt is made. -/
theorem feasible_sentinel_spec_witness :
    get_one_feasible_signal 1000 4 4 (1, 1) (fun _ _ => 0) 3 =
      Except.error SigErr.unboundLocal ∧
    1 ≤ get_one_feasible_attempts 500 4 4 (1, 1) (fun _ _ => 0) 1 :=
  ⟨(feasible_sentinel_spec 1000 4 4 (1, 1) (fun _ _ => 0) 3).1 (by norm_num),
   (feasible_sentinel_spec 500 4 4 (1, 1) (fun _ _ => 0) 1).2 (by norm_num)
     (by norm_num)⟩

/-! ## C5: peak normalization -/

theorem foldl_max_init_le (u : List ℝ) :
    ∀ a : ℝ, a ≤ u.foldl (fun a x => max a |x|) a := by
  induction u with
  | nil => intro a; exact le_refl a
  | cons x xs ih =>
    intro a
    exact le_trans (le_max_left a |x|) (ih (max a |x|))

theorem mem_le_foldl_max {x : ℝ} {u : List ℝ} (hx : x ∈ u) :
    ∀ a : ℝ, |x| ≤ u.foldl (fun a y => max a |y|) a := by
  induction u with
  | nil => exact absurd hx (List.not_mem_nil x)
  | cons y ys ih =>
    intro a
    rcases List.mem_cons.mp hx with h | h
    · subst h
      exact le_trans (le_max_right a |x|) (foldl_max_init_le ys (max a |x|))
    · exact ih h (max a |y|)

theorem foldl_max_all_zero {u : List ℝ} (h : ∀ x ∈ u, x = 0) :
    ∀ a : ℝ, 0 ≤ a → u.foldl (fun a y => max a |y|) a = a := by
  induction u with
  | nil => intro a _; rfl
  | cons y ys ih =>
    intro a ha
    have hy : y = 0 := h y (List.mem_cons_self y ys)
    have : max a |y| = a := by rw [hy, abs_zero]; exact max_eq_left ha
    rw [List.foldl_cons, this, ih (fun x hx => h x (List.mem_cons_of_mem y hx)) a ha]

theorem foldl_max_div {M : ℝ} (hM : 0 < M) (u : List ℝ) :
    ∀ a : ℝ, (u.map (fun x => x / M)).foldl (fun a y => max a |y|) (a / M) =
      (u.foldl (fun a y => max a |y|) a) / M := by
  induction u with
  | nil => intro a; rfl
  | cons y ys ih =>
    intro a
    have habs : |y / M| = |y| / M := by
      rw [abs_div, abs_of_pos hM]
    rw [List.map_cons, List.foldl_cons, List.foldl_cons, habs,
      max_div_div_right (le_of_lt hM) a |y|, ih (max a |y|)]

theorem npMaxAbs_nonneg (u : List ℝ) : 0 ≤ npMaxAbs u :=
  foldl_max_init_le u 0

/-- C5: for `u` not identically zero, `_get_normalization` returns
`u / max|u|` and the returned signal has peak absolute value exactly `1`;
for `u` identically zero it fails (the `none` modelling the NaN/Inf outcome)
rather than returning a finite signal. -/
theorem normalization_spec (u : List ℝ) :
    ((∃ x ∈ u, x ≠ 0) →
      _get_normalization u = some (u.map (fun x => x / npMaxAbs u)) ∧
      npMaxAbs (u.map (fun x => x / npMaxAbs u)) = 1) ∧
    ((∀ x ∈ u, x = 0) → _get_normalization u = none) := by
  constructor
  · rintro ⟨x, hx, hx0⟩
    have hpos : 0 < npMaxAbs u :=
      lt_of_lt_of_le (abs_pos.mpr hx0) (mem_le_foldl_max hx 0)
    have hne : npMaxAbs u ≠ 0 := ne_of_gt hpos
    constructor
    · rw [_get_normalization, if_neg hne]
    · have h0 : (0 : ℝ) = 0 / npMaxAbs u := by rw [zero_div]
      rw [npMaxAbs, h0, foldl_max_div hpos u 0]
      exact div_self hne
  · intro h
    have hz : npMaxAbs u = 0 := foldl_max_all_zero h 0 (le_refl 0)
    rw [_get_normalization, if_pos hz]

/-- Witness for C5: the signal `[2, -4]` normalizes to `[1/2, -1]` with peak
`1`; the identically-zero signal `[0, 0]` makes normalization fail. -/
theorem normalization_spec_witness :
    (_get_normalization [2, -4] = some ([(2 : ℝ), -4].map (fun x => x / npMaxAbs [2, -4])) ∧
      npMaxAbs ([(2 : ℝ), -4].map (fun x => x / npMaxAbs [2, -4])) = 1) ∧
    _get_normalization [0, 0] = none :=
  ⟨(normalization_spec [2, -4]).1 ⟨2, by norm_num, by norm_num⟩,
   (normalization_spec [0, 0]).2 (by
      intro x hx
      rcases List.mem_cons.mp hx with h | h
      · exact h
      · simpa using h)⟩

/-! ## Pipeline structure lemmas -/

theorem get_frequency_signal_eta (N : ℕ) (amp : ℝ) (idx : ℕ × ℕ) (rand : ℕ → ℝ) :
    get_frequency_signal N amp idx rand =
      (_get_complex_signal (_get_frequency_amplitude N amp idx) (_get_random_phase N rand),
       _get_frequency_amplitude N amp idx, _get_random_phase N rand) := rfl

theorem length_frequency_amplitude (N : ℕ) (amp : ℝ) (idx : ℕ × ℕ) :
    (_get_frequency_amplitude N amp idx).length = N := by
  simp [_get_frequency_amplitude, assignRange_length]

theorem length_random_phase (N : ℕ) (rand : ℕ → ℝ) :
    (_get_random_phase N rand).length = N := by
  simp [_get_random_phase]

theorem length_complex_signal (U_amp U_phase : List ℝ) :
    (_get_complex_signal U_amp U_phase).length = min U_amp.length U_phase.length := by
  simp [_get_complex_signal]

theorem length_time_signal (U : List ℂ) : (get_time_signal U).length = U.length := by
  simp [get_time_signal, ifft]

theorem length_normalization {v w : List ℝ} (h : _get_normalization v = some w) :
    w.length = v.length := by
  rw [_get_normalization] at h
  by_cases hz : npMaxAbs v = 0
  · rw [if_pos hz] at h; exact absurd h (by simp)
  · rw [if_neg hz] at h
    obtain rfl : v.map (fun x => x / npMaxAbs v) = w := by simpa using h
    simp

/-- Everything that holds of a pair accepted by the rejection-sampling loop:
both arrays have length `N`, and re-running the deterministic tail of the
pipeline on the pair normalizes successfully to a signal whose first two
samples differ by at most `eps`. -/
def AcceptedPair (eps : ℝ) (N : ℕ) (r : List ℝ × List ℝ) : Prop :=
  r.1.length = N ∧ r.2.length = N ∧
  ∃ w, _get_normalization (get_time_signal (_get_complex_signal r.1 r.2)) = some w ∧
    diffOf w ≤ eps

theorem feasGo_ok (eps : ℝ) (N : ℕ) (amp : ℝ) (idx : ℕ × ℕ) (rand : ℕ → ℕ → ℝ) :
    ∀ (fuel k : ℕ) (diff : ℝ) (acc : Option (List ℝ × List ℝ)) (r : List ℝ × List ℝ),
      (∀ r', acc = some r' → r'.1.length = N ∧ r'.2.length = N ∧
        ∃ w, _get_normalization (get_time_signal (_get_complex_signal r'.1 r'.2)) = some w ∧
          diffOf w = diff) →
      feasGo eps N amp idx rand fuel k diff acc = Except.ok r →
      AcceptedPair eps N r := by
  intro fuel
  induction fuel with
  | zero =>
    intro k diff acc r hacc h
    simp only [feasGo] at h
    by_cases hd : diff > eps
    · rw [if_pos hd] at h; exact absurd h (by simp)
    · rw [if_neg hd] at h
      cases acc with
      | none => exact absurd h (by simp)
      | some r0 =>
        obtain rfl : r0 = r := by simpa using h
        obtain ⟨h1, h2, w, hw, hdiff⟩ := hacc r0 rfl
        exact ⟨h1, h2, w, hw, hdiff ▸ not_lt.mp hd⟩
  | succ n ih =>
    intro k diff acc r hacc h
    simp only [feasGo] at h
    by_cases hd : diff > eps
    · rw [if_pos hd] at h
      simp only [get_frequency_signal_eta] at h
      cases h2 : _get_normalization (get_time_signal
          (_get_complex_signal (_get_frequency_amplitude N amp idx)
            (_get_random_phase N (rand k)))) with
      | none => rw [h2] at h; exact absurd h (by simp)
      | some w =>
        rw [h2] at h
        refine ih (k + 1) (diffOf w) _ r ?_ h
        intro r' hr'
        obtain rfl : (_get_frequency_amplitude N amp idx, _get_random_phase N (rand k)) = r' := by
          simpa using hr'
        exact ⟨length_frequency_amplitude N amp idx, length_random_phase N (rand k),
          w, h2, rfl⟩
    · rw [if_neg hd] at h
      cases acc with
      | none => exact absurd h (by simp)
      | some r0 =>
        obtain rfl : r0 = r := by simpa using h
        obtain ⟨h1, h2, w, hw, hdiff⟩ := hacc r0 rfl
        exact ⟨h1, h2, w, hw, hdiff ▸ not_lt.mp hd⟩

theorem get_one_feasible_signal_ok {eps : ℝ} {N : ℕ} {amp : ℝ} {idx : ℕ × ℕ}
    {rand : ℕ → ℕ → ℝ} {fuel : ℕ} {r : List ℝ × List ℝ}
    (h : get_one_feasible_signal eps N amp idx rand fuel = Except.ok r) :
    AcceptedPair eps N r :=
  feasGo_ok eps N amp idx rand fuel 0 1000 none r (by intro r' hr'; exact absurd hr' (by simp)) h

theorem seqOpt_some {α : Type} :
    ∀ {l : List (Option α)} {xs : List α}, seqOpt l = some xs →
      xs.length = l.length ∧
      ∀ i (hi : i < l.length) (hi' : i < xs.length), l[i] = some (xs[i]) := by
  intro l
  induction l with
  | nil =>
    intro xs h
    obtain rfl : ([] : List α) = xs := by simpa [seqOpt] using h
    exact ⟨rfl, fun i hi => by simp at hi⟩
  | cons o os ih =>
    intro xs h
    cases o with
    | none => exact absurd h (by simp [seqOpt])
    | some x =>
      rw [seqOpt] at h
      cases hos : seqOpt os with
      | none => rw [hos] at h; exact absurd h (by simp)
      | some ys =>
        rw [hos] at h
        obtain rfl : x :: ys = xs := by simpa using h
        obtain ⟨hlen, hidx⟩ := ih hos
        refine ⟨by simpa using hlen, ?_⟩
        intro i hi hi'
        cases i with
        | zero => rfl
        | succ nn =>
          exact hidx nn (by simpa using hi) (by simpa using hi')

theorem seqExcept_ok {ε α : Type} :
    ∀ {l : List (Except ε α)} {xs : List α}, seqExcept l = Except.ok xs →
      xs.length = l.length ∧
      ∀ i (hi : i < l.length) (hi' : i < xs.length), l[i] = Except.ok (xs[i]) := by
  intro l
  induction l with
  | nil =>
    intro xs h
    obtain rfl : ([] : List α) = xs := by simpa [seqExcept] using h
    exact ⟨rfl, fun i hi => by simp at hi⟩
  | cons o os ih =>
    intro xs h
    cases o with
    | error e => exact absurd h (by simp [seqExcept])
    | ok x =>
      rw [seqExcept] at h
      cases hos : seqExcept os with
      | error e => rw [hos] at h; exact absurd h (by simp)
      | ok ys =>
        rw [hos] at h
        obtain rfl : x :: ys = xs := by simpa using h
        obtain ⟨hlen, hidx⟩ := ih hos
        refine ⟨by simpa using hlen, ?_⟩
        intro i hi hi'
        cases i with
        | zero => rfl
        | succ nn =>
          exact hidx nn (by simpa using hi) (by simpa using hi')

theorem get_signals_orthogonal_ok {eps : ℝ} {N : ℕ} {amp : ℝ} {nr_inputs : ℕ}
    {idx : ℕ × ℕ} {rand : ℕ → ℕ → ℕ → ℝ} {fuel : ℕ} {A P u : List (List ℝ)}
    (h : get_signals eps N amp nr_inputs idx "orthogonal" rand fuel =
      Except.ok (A, P, u)) :
    ∃ A0 P0,
      get_one_feasible_signal eps N amp idx (rand 0) fuel = Except.ok (A0, P0) ∧
      A0.length = N ∧ P0.length = N ∧
      A.length = nr_inputs ∧ P.length = nr_inputs ∧ u.length = nr_inputs ∧
      ∀ i, i < nr_inputs →
        A.getD i [] = A0 ∧
        P.getD i [] = P0.map (fun x => x + 2 * π * i / nr_inputs) ∧
        _get_normalization (get_time_signal (_get_complex_signal A0
          (P0.map (fun x => x + 2 * π * i / nr_inputs)))) = some (u.getD i []) ∧
        (u.getD i []).length = N := by
  unfold get_signals at h
  rw [if_pos rfl] at h
  split at h
  · exact absurd h (by simp)
  · rename_i base hb
    split at h
    · exact absurd h (by simp)
    · rename_i rows hs
      obtain ⟨hA, hP, hu⟩ : rows.map (fun r => r.1) = A ∧
          rows.map (fun r => r.2.1) = P ∧ rows.map (fun r => r.2.2) = u := by
        simpa using h
      obtain ⟨hrl, hridx⟩ := seqOpt_some hs
      have hrows : rows.length = nr_inputs := by simpa using hrl
      obtain ⟨hbase1, hbase2, _⟩ := get_one_feasible_signal_ok hb
      refine ⟨base.1, base.2, by simpa using hb, hbase1, hbase2,
        by rw [← hA, List.length_map, hrows],
        by rw [← hP, List.length_map, hrows],
        by rw [← hu, List.length_map, hrows], ?_⟩
      intro i hi
      have hi' : i < rows.length := by rw [hrows]; exact hi
      have hmapi : i < ((List.range nr_inputs).map (fun i : ℕ =>
          (_get_normalization (get_time_signal (_get_complex_signal base.1
              (base.2.map (fun x => x + 2 * π * i / nr_inputs))))).map
            (fun w => (base.1, base.2.map (fun x => x + 2 * π * i / nr_inputs), w)))).length := by
        simpa using hi
      have hfi := hridx i hmapi hi'
      rw [List.getElem_map, List.getElem_range] at hfi
      obtain ⟨w, hw, hmk⟩ := Option.map_eq_some'.mp hfi
      have hwlen : w.length = N := by
        have h1 := length_normalization hw
        rw [length_time_signal, length_complex_signal, hbase1, List.length_map,
          hbase2, Nat.min_self] at h1
        exact h1
      have hAi : A.getD i [] = rows[i].1 := by
        rw [← hA, List.getD_eq_getElem _ _ (by rw [List.length_map]; exact hi'),
          List.getElem_map]
      have hPi : P.getD i [] = rows[i].2.1 := by
        rw [← hP, List.getD_eq_getElem _ _ (by rw [List.length_map]; exact hi'),
          List.getElem_map]
      have hui : u.getD i [] = rows[i].2.2 := by
        rw [← hu, List.getD_eq_getElem _ _ (by rw [List.length_map]; exact hi'),
          List.getElem_map]
      rw [← hmk] at hAi hPi hui
      refine ⟨hAi, hPi, ?_, ?_⟩
      · rw [hui]; exact hw
      · rw [hui]; exact hwlen

theorem get_signals_random_ok {eps : ℝ} {N : ℕ} {amp : ℝ} {nr_inputs : ℕ}
    {idx : ℕ × ℕ} {rand : ℕ → ℕ → ℕ → ℝ} {fuel : ℕ} {A P u : List (List ℝ)}
    (h : get_signals eps N amp nr_inputs idx "random" rand fuel =
      Except.ok (A, P, u)) :
    A.length = nr_inputs ∧ P.length = nr_inputs ∧ u.length = nr_inputs ∧
    ∀ i, i < nr_inputs → ∃ Ai Pi,
      get_one_feasible_signal eps N amp idx (rand i) fuel = Except.ok (Ai, Pi) ∧
      A.getD i [] = Ai ∧ P.getD i [] = Pi ∧
      _get_normalization (get_time_signal (_get_complex_signal Ai Pi)) =
        some (u.getD i []) ∧
      Ai.length = N ∧ Pi.length = N ∧ (u.getD i []).length = N := by
  unfold get_signals at h
  rw [if_neg (by decide), if_pos rfl] at h
  split at h
  · exact absurd h (by simp)
  · rename_i rows hs
    obtain ⟨hA, hP, hu⟩ : rows.map (fun r => r.1) = A ∧
        rows.map (fun r => r.2.1) = P ∧ rows.map (fun r => r.2.2) = u := by
      simpa using h
    obtain ⟨hrl, hridx⟩ := seqExcept_ok hs
    have hrows : rows.length = nr_inputs := by simpa using hrl
    refine ⟨by rw [← hA, List.length_map, hrows],
      by rw [← hP, List.length_map, hrows],
      by rw [← hu, List.length_map, hrows], ?_⟩
    intro i hi
    have hi' : i < rows.length := by rw [hrows]; exact hi
    have hmapi : i < ((List.range nr_inputs).map (fun i : ℕ =>
        match get_one_feasible_signal eps N amp idx (rand i) fuel with
        | .error e => Except.error e
        | .ok pair =>
            match _get_normalization (get_time_signal (_get_complex_signal pair.1 pair.2)) with
            | none => Except.error SigErr.degenerate
            | some w => Except.ok (pair.1, pair.2, w))).length := by
      simpa using hi
    have hfi := hridx i hmapi hi'
    rw [List.getElem_map, List.getElem_range] at hfi
    split at hfi
    next e heq => exact absurd hfi (by simp)
    next pair hfeas =>
      split at hfi
      next hni => exact absurd hfi (by simp)
      next w hni =>
        have hmk : (pair.1, pair.2, w) = rows[i] := by simpa using hfi
        obtain ⟨hp1, hp2, _⟩ := get_one_feasible_signal_ok hfeas
        have hwlen : w.length = N := by
          have h1 := length_normalization hni
          rw [length_time_signal, length_complex_signal, hp1, hp2, Nat.min_self] at h1
          exact h1
        have hAi : A.getD i [] = rows[i].1 := by
          rw [← hA, List.getD_eq_getElem _ _ (by rw [List.length_map]; exact hi'),
            List.getElem_map]
        have hPi : P.getD i [] = rows[i].2.1 := by
          rw [← hP, List.getD_eq_getElem _ _ (by rw [List.length_map]; exact hi'),
            List.getElem_map]
        have hui : u.getD i [] = rows[i].2.2 := by
          rw [← hu, List.getD_eq_getElem _ _ (by rw [List.length_map]; exact hi'),
            List.getElem_map]
        rw [← hmk] at hAi hPi hui
        refine ⟨pair.1, pair.2, by simpa using hfeas, hAi, hPi, ?_, hp1, hp2, ?_⟩
        · rw [hui]; exact hni
        · rw [hui]; exact hwlen

/-! ## C1: per-channel cyclicity -/

/-- C1 (amended): in mode `'random'` every accepted channel's normalized time
signal satisfies the cyclicity invariant `|u[i][0] - u[i][1]| ≤ eps`; in mode
`'orthogonal'` the feasibility check runs only on the base signal, so the
invariant is guaranteed for channel `0` (whose phase shift is zero) but not
for the other channels (see the counterexample). -/
theorem signals_cyclicity_spec (eps : ℝ) (N : ℕ) (amp : ℝ) (nr_inputs : ℕ)
    (idx : ℕ × ℕ) (rand : ℕ → ℕ → ℕ → ℝ) (fuel : ℕ) (A P u : List (List ℝ)) :
    (get_signals eps N amp nr_inputs idx "random" rand fuel = Except.ok (A, P, u) →
      ∀ i, i < nr_inputs → diffOf (u.getD i []) ≤ eps) ∧
    (get_signals eps N amp nr_inputs idx "orthogonal" rand fuel = Except.ok (A, P, u) →
      0 < nr_inputs → diffOf (u.getD 0 []) ≤ eps) := by
  constructor
  · intro h i hi
    obtain ⟨-, -, -, hrow⟩ := get_signals_random_ok h
    obtain ⟨Ai, Pi, hfeas, -, -, hnorm, -, -, -⟩ := hrow i hi
    obtain ⟨-, -, w, hw, hdiff⟩ := get_one_feasible_signal_ok hfeas
    dsimp only at hw
    obtain rfl : w = u.getD i [] := Option.some.inj (hw.symm.trans hnorm)
    exact hdiff
  · intro h hn
    obtain ⟨A0, P0, hfeas, -, -, -, -, -, hrow⟩ := get_signals_orthogonal_ok h
    obtain ⟨-, -, hnorm, -⟩ := hrow 0 hn
    have hshift : (fun x : ℝ => x + 2 * π * (0 : ℕ) / nr_inputs) = fun x : ℝ => x := by
      funext x; simp
    rw [hshift, List.map_id'] at hnorm
    obtain ⟨-, -, w, hw, hdiff⟩ := get_one_feasible_signal_ok hfeas
    dsimp only at hw
    obtain rfl : w = u.getD 0 [] := Option.some.inj (hw.symm.trans hnorm)
    exact hdiff

/-! ## C2: orthogonal mode structure -/

/-- C2: in `'orthogonal'` mode an accepted result comes from a single
feasibility search: the result depends only on that search's random stream,
and with `(U_amp0, U_phase0)` the pair returned by that one search, every
channel `i < nr_inputs` has amplitude row `U_amp0` unchanged, phase row
`U_phase0 + 2π·i/nr_inputs` (elementwise), and time row equal to the
normalized real inverse DFT of the spectrum rebuilt from `U_amp0` and the
shifted phase. -/
theorem orthogonal_mode_spec (eps : ℝ) (N : ℕ) (amp : ℝ) (nr_inputs : ℕ)
    (idx : ℕ × ℕ) (rand : ℕ → ℕ → ℕ → ℝ) (fuel : ℕ) (A P u : List (List ℝ))
    (h : get_signals eps N amp nr_inputs idx "orthogonal" rand fuel =
      Except.ok (A, P, u)) :
    (∀ rand' : ℕ → ℕ → ℕ → ℝ, rand' 0 = rand 0 →
      get_signals eps N amp nr_inputs idx "orthogonal" rand' fuel =
        Except.ok (A, P, u)) ∧
    ∃ A0 P0,
      get_one_feasible_signal eps N amp idx (rand 0) fuel = Except.ok (A0, P0) ∧
      ∀ i, i < nr_inputs →
        A.getD i [] = A0 ∧
        P.getD i [] = P0.map (fun x => x + 2 * π * i / nr_inputs) ∧
        (∀ k0, k0 < P0.length →
          (P.getD i []).getD k0 0 = P0.getD k0 0 + 2 * π * i / nr_inputs) ∧
        _get_normalization (get_time_signal (_get_complex_signal A0
          (P0.map (fun x => x + 2 * π * i / nr_inputs)))) = some (u.getD i []) := by
  constructor
  · intro rand' hr
    rw [← h]
    unfold get_signals
    rw [if_pos rfl, if_pos rfl, hr]
  · obtain ⟨A0, P0, hfeas, -, -, -, -, -, hrow⟩ := get_signals_orthogonal_ok h
    refine ⟨A0, P0, hfeas, ?_⟩
    intro i hi
    obtain ⟨h1, h2, h3, -⟩ := hrow i hi
    refine ⟨h1, h2, ?_, h3⟩
    intro k0 hk0
    rw [h2, List.getD_eq_getElem _ _ (by rw [List.length_map]; exact hk0),
      List.getElem_map, List.getD_eq_getElem _ _ hk0]

/-! ## C8: output shapes of the synthesis entry point -/

/-- C8: for `m, p, nr_inputs ≥ 1` and a valid mode, a successful
`get_multi_signals` returns `U_amp`, `U_phase`, `u` of shape
`(nr_inputs, m, N)` and the repeated sequence of shape `(nr_inputs, m*p*N)`. -/
theorem multi_signals_shape_spec (eps : ℝ) (N : ℕ) (amp : ℝ) (idx : ℕ × ℕ)
    (m p nr_inputs : ℕ) (mode : String) (rand : ℕ → ℕ → ℕ → ℕ → ℝ) (fuel : ℕ)
    (A P u : List (List (List ℝ))) (us : List (List ℝ))
    (hm : 1 ≤ m) (hp : 1 ≤ p) (hn : 1 ≤ nr_inputs)
    (hmode : mode = "orthogonal" ∨ mode = "random")
    (h : get_multi_signals eps N amp idx m p nr_inputs mode rand fuel =
      Except.ok (A, P, u, us)) :
    A.length = nr_inputs ∧ P.length = nr_inputs ∧ u.length = nr_inputs ∧
    us.length = nr_inputs ∧
    (∀ ch ∈ A, ch.length = m ∧ ∀ s ∈ ch, s.length = N) ∧
    (∀ ch ∈ P, ch.length = m ∧ ∀ s ∈ ch, s.length = N) ∧
    (∀ ch ∈ u, ch.length = m ∧ ∀ s ∈ ch, s.length = N) ∧
    (∀ r ∈ us, r.length = m * p * N) := by
  unfold get_multi_signals at h
  split at h
  · exact absurd h (by simp)
  · rename_i ts hts
    obtain ⟨hA, hP, hu, hus⟩ :
        (List.range nr_inputs).map (fun c => ts.map (fun t => t.1.getD c [])) = A ∧
        (List.range nr_inputs).map (fun c => ts.map (fun t => t.2.1.getD c [])) = P ∧
        (List.range nr_inputs).map (fun c => ts.map (fun t => t.2.2.getD c [])) = u ∧
        get_repeat_signals
          ((List.range nr_inputs).map (fun c => ts.map (fun t => t.2.2.getD c []))) p = us := by
      simpa using h
    obtain ⟨htl, htidx⟩ := seqExcept_ok hts
    have htsm : ts.length = m := by simpa using htl
    have htrial : ∀ t ∈ ts, ∀ c, c < nr_inputs →
        (t.1.getD c []).length = N ∧ (t.2.1.getD c []).length = N ∧
        (t.2.2.getD c []).length = N := by
      intro t ht c hc
      obtain ⟨j, hj, hjt⟩ := List.mem_iff_getElem.mp ht
      have hmapj : j < ((List.range m).map (fun i =>
          get_signals eps N amp nr_inputs idx mode (rand i) fuel)).length := by
        simp only [List.length_map, List.length_range]
        rw [← htsm]; exact hj
      have hgs := htidx j hmapj hj
      rw [List.getElem_map, List.getElem_range, hjt] at hgs
      rcases hmode with hmo | hmo
      · rw [hmo] at hgs
        obtain ⟨A0, P0, -, hA0, hP0, -, -, -, hrow⟩ := get_signals_orthogonal_ok hgs
        obtain ⟨hr1, hr2, -, hr4⟩ := hrow c hc
        refine ⟨by rw [hr1]; exact hA0, ?_, hr4⟩
        rw [hr2, List.length_map]; exact hP0
      · rw [hmo] at hgs
        obtain ⟨-, -, -, hrow⟩ := get_signals_random_ok hgs
        obtain ⟨Ai, Pi, -, hr1, hr2, -, hAi, hPi, hr4⟩ := hrow c hc
        exact ⟨by rw [hr1]; exact hAi, by rw [hr2]; exact hPi, hr4⟩
    have htlen : ∀ t ∈ ts, t.1.length = nr_inputs ∧ t.2.1.length = nr_inputs ∧
        t.2.2.length = nr_inputs := by
      intro t ht
      obtain ⟨j, hj, hjt⟩ := List.mem_iff_getElem.mp ht
      have hmapj : j < ((List.range m).map (fun i =>
          get_signals eps N amp nr_inputs idx mode (rand i) fuel)).length := by
        simp only [List.length_map, List.length_range]
        rw [← htsm]; exact hj
      have hgs := htidx j hmapj hj
      rw [List.getElem_map, List.getElem_range, hjt] at hgs
      rcases hmode with hmo | hmo
      · rw [hmo] at hgs
        obtain ⟨A0, P0, -, -, -, hl1, hl2, hl3, -⟩ := get_signals_orthogonal_ok hgs
        exact ⟨hl1, hl2, hl3⟩
      · rw [hmo] at hgs
        obtain ⟨hl1, hl2, hl3, -⟩ := get_signals_random_ok hgs
        exact ⟨hl1, hl2, hl3⟩
    have hAshape : ∀ ch ∈ A, ch.length = m ∧ ∀ s ∈ ch, s.length = N := by
      intro ch hch
      rw [← hA] at hch
      obtain ⟨c, hc, rfl⟩ := List.mem_map.mp hch
      rw [List.mem_range] at hc
      refine ⟨by rw [List.length_map]; exact htsm, ?_⟩
      intro s hsmem
      obtain ⟨t, ht, rfl⟩ := List.mem_map.mp hsmem
      exact (htrial t ht c hc).1
    have hPshape : ∀ ch ∈ P, ch.length = m ∧ ∀ s ∈ ch, s.length = N := by
      intro ch hch
      rw [← hP] at hch
      obtain ⟨c, hc, rfl⟩ := List.mem_map.mp hch
      rw [List.mem_range] at hc
      refine ⟨by rw [List.length_map]; exact htsm, ?_⟩
      intro s hsmem
      obtain ⟨t, ht, rfl⟩ := List.mem_map.mp hsmem
      exact (htrial t ht c hc).2.1
    have hushape : ∀ ch ∈ u, ch.length = m ∧ ∀ s ∈ ch, s.length = N := by
      intro ch hch
      rw [← hu] at hch
      obtain ⟨c, hc, rfl⟩ := List.mem_map.mp hch
      rw [List.mem_range] at hc
      refine ⟨by rw [List.length_map]; exact htsm, ?_⟩
      intro s hsmem
      obtain ⟨t, ht, rfl⟩ := List.mem_map.mp hsmem
      exact (htrial t ht c hc).2.2
    refine ⟨by rw [← hA]; simp, by rw [← hP]; simp, by rw [← hu]; simp,
      by rw [← hus, get_repeat_signals]; simp, hAshape, hPshape, hushape, ?_⟩
    intro r hr
    rw [← hus, get_repeat_signals] at hr
    obtain ⟨ch, hch, rfl⟩ := List.mem_map.mp hr
    have hchu : ch ∈ u := by rw [← hu]; exact hch
    obtain ⟨hchm, hchN⟩ := hushape ch hchu
    rw [List.length_flatten, sum_map_uniform _ _ (p * N) ?huni, List.length_map,
      hchm, ← Nat.mul_assoc]
    case huni =>
      intro sig hsig
      obtain ⟨s, hs, rfl⟩ := List.mem_map.mp hsig
      rw [length_flatten_replicate, hchN s hs]

/-! ## Concrete evaluation of the pipeline

The configuration `N = 4`, `amp = 4`, `idx = (1, 1)`, `eps = 1/10` with every
uniform draw equal to `3/8` (phase `3π/4` on the single excited bin) admits a
closed-form evaluation of the whole pipeline: the base time signal is
`(√2/2)·[-1, -1, 1, 1]`, which normalizes to `[-1, -1, 1, 1]` and passes the
cyclicity check with difference `0`. -/

theorem sqrt_two_half_pos : (0 : ℝ) < Real.sqrt 2 / 2 := by positivity

theorem abs_sqrt_two_half : |Real.sqrt 2 / 2| = Real.sqrt 2 / 2 :=
  abs_of_pos sqrt_two_half_pos

theorem abs_neg_sqrt_two_half : |-(Real.sqrt 2 / 2)| = Real.sqrt 2 / 2 := by
  rw [abs_neg]; exact abs_sqrt_two_half

theorem cos34 : Real.cos (3 * π / 4) = -(Real.sqrt 2 / 2) := by
  rw [show (3 * π / 4 : ℝ) = π - π / 4 by ring, Real.cos_pi_sub, Real.cos_pi_div_four]

theorem sin34 : Real.sin (3 * π / 4) = Real.sqrt 2 / 2 := by
  rw [show (3 * π / 4 : ℝ) = π - π / 4 by ring, Real.sin_pi_sub, Real.sin_pi_div_four]

theorem cos54 : Real.cos (5 * π / 4) = -(Real.sqrt 2 / 2) := by
  rw [show (5 * π / 4 : ℝ) = π + π / 4 by ring]
  simp [Real.cos_add, Real.cos_pi_div_four]

theorem sin54 : Real.sin (5 * π / 4) = -(Real.sqrt 2 / 2) := by
  rw [show (5 * π / 4 : ℝ) = π + π / 4 by ring]
  simp [Real.sin_add, Real.sin_pi_div_four]

theorem cos74 : Real.cos (7 * π / 4) = Real.sqrt 2 / 2 := by
  rw [show (7 * π / 4 : ℝ) = 2 * π - π / 4 by ring]
  simp [Real.cos_sub, Real.cos_two_pi, Real.sin_two_pi, Real.cos_pi_div_four]

theorem sin74 : Real.sin (7 * π / 4) = -(Real.sqrt 2 / 2) := by
  rw [show (7 * π / 4 : ℝ) = 2 * π - π / 4 by ring]
  simp [Real.sin_sub, Real.cos_two_pi, Real.sin_two_pi, Real.sin_pi_div_four]

theorem cos94 : Real.cos (9 * π / 4) = Real.sqrt 2 / 2 := by
  rw [show (9 * π / 4 : ℝ) = 2 * π + π / 4 by ring]
  simp [Real.cos_add, Real.cos_two_pi, Real.sin_two_pi, Real.cos_pi_div_four]

theorem sin94 : Real.sin (9 * π / 4) = Real.sqrt 2 / 2 := by
  rw [show (9 * π / 4 : ℝ) = 2 * π + π / 4 by ring]
  simp [Real.sin_add, Real.cos_two_pi, Real.sin_two_pi, Real.sin_pi_div_four]

theorem npMaxAbs_four (a b c d s : ℝ) (hs : 0 < s)
    (ha : |a| = s) (hb : |b| = s) (hc : |c| = s) (hd : |d| = s) :
    npMaxAbs [a, b, c, d] = s := by
  unfold npMaxAbs
  simp [List.foldl, ha, hb, hc, hd, max_self, max_eq_right hs.le]

theorem norm_four (a b c d s : ℝ) (hs : 0 < s)
    (ha : |a| = s) (hb : |b| = s) (hc : |c| = s) (hd : |d| = s) :
    _get_normalization [a, b, c, d] = some [a / s, b / s, c / s, d / s] := by
  rw [_get_normalization, npMaxAbs_four a b c d s hs ha hb hc hd,
    if_neg (ne_of_gt hs)]
  simp

theorem normRow1 : _get_normalization
    [-(Real.sqrt 2 / 2), -(Real.sqrt 2 / 2), Real.sqrt 2 / 2, Real.sqrt 2 / 2] =
    some [-1, -1, 1, 1] := by
  rw [norm_four _ _ _ _ _ sqrt_two_half_pos abs_neg_sqrt_two_half abs_neg_sqrt_two_half
    abs_sqrt_two_half abs_sqrt_two_half]
  norm_num [div_self (ne_of_gt sqrt_two_half_pos), neg_div]

theorem normRow2 : _get_normalization
    [-(Real.sqrt 2 / 2), Real.sqrt 2 / 2, Real.sqrt 2 / 2, -(Real.sqrt 2 / 2)] =
    some [-1, 1, 1, -1] := by
  rw [norm_four _ _ _ _ _ sqrt_two_half_pos abs_neg_sqrt_two_half abs_sqrt_two_half
    abs_sqrt_two_half abs_neg_sqrt_two_half]
  norm_num [div_self (ne_of_gt sqrt_two_half_pos), neg_div]

theorem normRow3 : _get_normalization
    [Real.sqrt 2 / 2, Real.sqrt 2 / 2, -(Real.sqrt 2 / 2), -(Real.sqrt 2 / 2)] =
    some [1, 1, -1, -1] := by
  rw [norm_four _ _ _ _ _ sqrt_two_half_pos abs_sqrt_two_half abs_sqrt_two_half
    abs_neg_sqrt_two_half abs_neg_sqrt_two_half]
  norm_num [div_self (ne_of_gt sqrt_two_half_pos), neg_div]

theorem normRow4 : _get_normalization
    [Real.sqrt 2 / 2, -(Real.sqrt 2 / 2), -(Real.sqrt 2 / 2), Real.sqrt 2 / 2] =
    some [1, -1, -1, 1] := by
  rw [norm_four _ _ _ _ _ sqrt_two_half_pos abs_sqrt_two_half abs_neg_sqrt_two_half
    abs_neg_sqrt_two_half abs_sqrt_two_half]
  norm_num [div_self (ne_of_gt sqrt_two_half_pos), neg_div]

/-- Time-domain signal of the spectrum with single excited bin `k = 1` at
amplitude `4` and uniform phase `φ` over `N = 4` points. -/
theorem eval_time_signal (φ : ℝ) :
    get_time_signal (_get_complex_signal [0, 4, 0, 0] [φ, φ, φ, φ]) =
      [Real.cos φ, -Real.sin φ, -Real.cos φ, Real.sin φ] := by
  have hU : _get_complex_signal [0, 4, 0, 0] [φ, φ, φ, φ] =
      [0, 4 * Complex.exp (Complex.I * φ), 0, 0] := by
    simp [_get_complex_signal]
  rw [hU]
  unfold get_time_signal ifft
  simp only [List.length_cons, List.length_nil, Nat.zero_add]
  norm_num [List.range_succ, Finset.sum_range_succ]
  rw [show (2 * (π : ℂ) * Complex.I / 4) = ((π / 2 : ℝ) : ℂ) * Complex.I from by
      push_cast; ring,
    show (2 * (π : ℂ) * Complex.I * 2 / 4) = ((π : ℝ) : ℂ) * Complex.I from by
      push_cast; ring,
    show (2 * (π : ℂ) * Complex.I * 3 / 4) = ((3 * π / 2 : ℝ) : ℂ) * Complex.I from by
      push_cast; ring,
    mul_comm Complex.I (φ : ℂ)]
  simp only [Complex.exp_ofReal_mul_I_re, Complex.exp_ofReal_mul_I_im]
  rw [show (3 * π / 2 : ℝ) = π + π / 2 by ring]
  simp only [Real.cos_add, Real.sin_add, Real.cos_pi_div_two, Real.sin_pi_div_two,
    Real.cos_pi, Real.sin_pi]
  norm_num
  exact ⟨by ring, by ring, by ring, by ring⟩

theorem eval_amp : _get_frequency_amplitude 4 (4 : ℝ) (1, 1) = [0, 4, 0, 0] := by
  norm_num [_get_frequency_amplitude, assignRange, List.replicate]

theorem eval_phase : _get_random_phase 4 (fun _ => (3 : ℝ) / 8) =
    [3 * π / 4, 3 * π / 4, 3 * π / 4, 3 * π / 4] := by
  norm_num [_get_random_phase, List.range_succ]
  ring

theorem eval_base_norm : _get_normalization (get_time_signal (_get_complex_signal
    [0, 4, 0, 0] [3 * π / 4, 3 * π / 4, 3 * π / 4, 3 * π / 4])) =
    some [-1, -1, 1, 1] := by
  rw [eval_time_signal, cos34, sin34, neg_neg]
  exact normRow1

/-- The feasibility search at the concrete configuration accepts on the very
first attempt: the drawn signal normalizes to `[-1, -1, 1, 1]` whose first two
samples coincide. -/
theorem eval_feasible :
    get_one_feasible_signal (1 / 10) 4 4 (1, 1) (fun _ _ => (3 : ℝ) / 8) 1 =
      Except.ok ([0, 4, 0, 0], [3 * π / 4, 3 * π / 4, 3 * π / 4, 3 * π / 4]) := by
  unfold get_one_feasible_signal
  have hc1 : ((1000 : ℝ) > 1 / 10) = True := eq_true (by norm_num)
  have hdiff0 : diffOf [-1, -1, 1, 1] = 0 := by norm_num [diffOf]
  have hc2 : (diffOf [-1, -1, 1, 1] > (1 / 10 : ℝ)) = False := by
    rw [hdiff0]; exact eq_false (by norm_num)
  simp only [feasGo, get_frequency_signal_eta, eval_amp, eval_phase, eval_base_norm,
    hc1, hc2, if_true, if_false]

/-- Forward evaluation of the `'orthogonal'` branch of `get_signals` from an
evaluated feasibility search and evaluated channel rows. -/
theorem get_signals_orthogonal_eval {eps : ℝ} {N : ℕ} {amp : ℝ} {nr_inputs : ℕ}
    {idx : ℕ × ℕ} {rand : ℕ → ℕ → ℕ → ℝ} {fuel : ℕ} {A0 P0 : List ℝ}
    {rows : List (List ℝ × List ℝ × List ℝ)}
    (hb : get_one_feasible_signal eps N amp idx (rand 0) fuel = Except.ok (A0, P0))
    (hrows : seqOpt ((List.range nr_inputs).map (fun i : ℕ =>
      (_get_normalization (get_time_signal (_get_complex_signal A0
          (P0.map (fun x => x + 2 * π * i / nr_inputs))))).map
        (fun w => (A0, P0.map (fun x => x + 2 * π * i / nr_inputs), w)))) = some rows) :
    get_signals eps N amp nr_inputs idx "orthogonal" rand fuel =
      Except.ok (rows.map (fun r => r.1), rows.map (fun r => r.2.1),
        rows.map (fun r => r.2.2)) := by
  have h1 : get_signals eps N amp nr_inputs idx "orthogonal" rand fuel =
      match seqOpt ((List.range nr_inputs).map (fun i : ℕ =>
        (_get_normalization (get_time_signal (_get_complex_signal A0
            (P0.map (fun x => x + 2 * π * i / nr_inputs))))).map
          (fun w => (A0, P0.map (fun x => x + 2 * π * i / nr_inputs), w)))) with
      | none => Except.error SigErr.degenerate
      | some rows =>
          Except.ok (rows.map (fun r => r.1), rows.map (fun r => r.2.1),
            rows.map (fun r => r.2.2)) := by
    unfold get_signals
    rw [if_pos rfl, hb]
  rw [h1, hrows]

/-- The four channel rows of the concrete orthogonal run: shifts `2π·i/4`
move the uniform phase `3π/4` to `5π/4`, `7π/4`, `9π/4`. -/
theorem eval_rows : seqOpt ((List.range 4).map (fun i : ℕ =>
    (_get_normalization (get_time_signal (_get_complex_signal [0, 4, 0, 0]
        ([3 * π / 4, 3 * π / 4, 3 * π / 4, 3 * π / 4].map
          (fun x => x + 2 * π * i / ((4 : ℕ) : ℝ)))))).map
      (fun w => (([0, 4, 0, 0] : List ℝ),
        [3 * π / 4, 3 * π / 4, 3 * π / 4, 3 * π / 4].map
          (fun x => x + 2 * π * i / ((4 : ℕ) : ℝ)), w)))) =
    some [(([0, 4, 0, 0] : List ℝ), [3 * π / 4, 3 * π / 4, 3 * π / 4, 3 * π / 4],
        ([-1, -1, 1, 1] : List ℝ)),
      ([0, 4, 0, 0], [5 * π / 4, 5 * π / 4, 5 * π / 4, 5 * π / 4], [-1, 1, 1, -1]),
      ([0, 4, 0, 0], [7 * π / 4, 7 * π / 4, 7 * π / 4, 7 * π / 4], [1, 1, -1, -1]),
      ([0, 4, 0, 0], [9 * π / 4, 9 * π / 4, 9 * π / 4, 9 * π / 4], [1, -1, -1, 1])] := by
  rw [show List.range 4 = [0, 1, 2, 3] from rfl]
  simp only [List.map]
  rw [show (3 * π / 4 + 2 * π * ((0 : ℕ) : ℝ) / ((4 : ℕ) : ℝ)) = 3 * π / 4 from by
      push_cast; ring,
    show (3 * π / 4 + 2 * π * ((1 : ℕ) : ℝ) / ((4 : ℕ) : ℝ)) = 5 * π / 4 from by
      push_cast; ring,
    show (3 * π / 4 + 2 * π * ((2 : ℕ) : ℝ) / ((4 : ℕ) : ℝ)) = 7 * π / 4 from by
      push_cast; ring,
    show (3 * π / 4 + 2 * π * ((3 : ℕ) : ℝ) / ((4 : ℕ) : ℝ)) = 9 * π / 4 from by
      push_cast; ring]
  simp only [eval_time_signal]
  rw [cos34, sin34, cos54, sin54, cos74, sin74, cos94, sin94, neg_neg]
  rw [normRow1, normRow2, normRow3, normRow4]
  rfl

/-- Full evaluation of the concrete orthogonal run.  Channel `1` (phase shift
`π/2`) produces the normalized signal `[-1, 1, 1, -1]`, whose first two
samples differ by `2` — far beyond the tolerance `1/10` — even though the run
is accepted. -/
theorem eval_get_signals :
    get_signals (1 / 10) 4 4 4 (1, 1) "orthogonal" (fun _ _ _ => (3 : ℝ) / 8) 1 =
      Except.ok
        ([[0, 4, 0, 0], [0, 4, 0, 0], [0, 4, 0, 0], [0, 4, 0, 0]],
         [[3 * π / 4, 3 * π / 4, 3 * π / 4, 3 * π / 4],
          [5 * π / 4, 5 * π / 4, 5 * π / 4, 5 * π / 4],
          [7 * π / 4, 7 * π / 4, 7 * π / 4, 7 * π / 4],
          [9 * π / 4, 9 * π / 4, 9 * π / 4, 9 * π / 4]],
         [[-1, -1, 1, 1], [-1, 1, 1, -1], [1, 1, -1, -1], [1, -1, -1, 1]]) := by
  rw [get_signals_orthogonal_eval eval_feasible eval_rows]
  rfl

/-- Forward evaluation of the `'random'` branch of `get_signals` from
evaluated per-channel searches. -/
theorem get_signals_random_eval {eps : ℝ} {N : ℕ} {amp : ℝ} {nr_inputs : ℕ}
    {idx : ℕ × ℕ} {rand : ℕ → ℕ → ℕ → ℝ} {fuel : ℕ}
    {rows : List (List ℝ × List ℝ × List ℝ)}
    (hrows : seqExcept ((List.range nr_inputs).map (fun i : ℕ =>
      match get_one_feasible_signal eps N amp idx (rand i) fuel with
      | .error e => Except.error e
      | .ok pair =>
          match _get_normalization
              (get_time_signal (_get_complex_signal pair.1 pair.2)) with
          | none => Except.error SigErr.degenerate
          | some w => Except.ok (pair.1, pair.2, w))) = Except.ok rows) :
    get_signals eps N amp nr_inputs idx "random" rand fuel =
      Except.ok (rows.map (fun r => r.1), rows.map (fun r => r.2.1),
        rows.map (fun r => r.2.2)) := by
  have h1 : get_signals eps N amp nr_inputs idx "random" rand fuel =
      match seqExcept ((List.range nr_inputs).map (fun i : ℕ =>
        match get_one_feasible_signal eps N amp idx (rand i) fuel with
        | .error e => Except.error e
        | .ok pair =>
            match _get_normalization
                (get_time_signal (_get_complex_signal pair.1 pair.2)) with
            | none => Except.error SigErr.degenerate
            | some w => Except.ok (pair.1, pair.2, w))) with
      | .error e => Except.error e
      | .ok rows =>
          Except.ok (rows.map (fun r => r.1), rows.map (fun r => r.2.1),
            rows.map (fun r => r.2.2)) := by
    unfold get_signals
    rw [if_neg (by decide), if_pos rfl]
  rw [h1, hrows]

/-- The four independent channel searches of the concrete random run: every
channel draws the same stream and accepts `[-1, -1, 1, 1]`. -/
theorem eval_rand_rows : seqExcept ((List.range 4).map (fun i : ℕ =>
    match get_one_feasible_signal (1 / 10) 4 4 (1, 1) (fun _ _ => (3 : ℝ) / 8) 1 with
    | .error e => Except.error e
    | .ok pair =>
        match _get_normalization
            (get_time_signal (_get_complex_signal pair.1 pair.2)) with
        | none => Except.error SigErr.degenerate
        | some w => Except.ok (pair.1, pair.2, w))) =
    Except.ok [(([0, 4, 0, 0] : List ℝ),
        ([3 * π / 4, 3 * π / 4, 3 * π / 4, 3 * π / 4] : List ℝ),
        ([-1, -1, 1, 1] : List ℝ)),
      ([0, 4, 0, 0], [3 * π / 4, 3 * π / 4, 3 * π / 4, 3 * π / 4], [-1, -1, 1, 1]),
      ([0, 4, 0, 0], [3 * π / 4, 3 * π / 4, 3 * π / 4, 3 * π / 4], [-1, -1, 1, 1]),
      ([0, 4, 0, 0], [3 * π / 4, 3 * π / 4, 3 * π / 4, 3 * π / 4], [-1, -1, 1, 1])] := by
  rw [show List.range 4 = [0, 1, 2, 3] from rfl]
  simp only [List.map, eval_feasible, eval_base_norm]
  rfl

/-- Full evaluation of the concrete random run: every channel accepts the
base signal. -/
theorem eval_get_signals_random :
    get_signals (1 / 10) 4 4 4 (1, 1) "random" (fun _ _ _ => (3 : ℝ) / 8) 1 =
      Except.ok
        ([[0, 4, 0, 0], [0, 4, 0, 0], [0, 4, 0, 0], [0, 4, 0, 0]],
         [[3 * π / 4, 3 * π / 4, 3 * π / 4, 3 * π / 4],
          [3 * π / 4, 3 * π / 4, 3 * π / 4, 3 * π / 4],
          [3 * π / 4, 3 * π / 4, 3 * π / 4, 3 * π / 4],
          [3 * π / 4, 3 * π / 4, 3 * π / 4, 3 * π / 4]],
         [[-1, -1, 1, 1], [-1, -1, 1, 1], [-1, -1, 1, 1], [-1, -1, 1, 1]]) := by
  rw [get_signals_random_eval eval_rand_rows]
  rfl

/-- Forward evaluation of `get_multi_signals` from evaluated trials. -/
theorem get_multi_signals_eval {eps : ℝ} {N : ℕ} {amp : ℝ} {idx : ℕ × ℕ}
    {m p nr_inputs : ℕ} {mode : String} {rand : ℕ → ℕ → ℕ → ℕ → ℝ} {fuel : ℕ}
    {ts : List (List (List ℝ) × List (List ℝ) × List (List ℝ))}
    (hts : seqExcept ((List.range m).map (fun i =>
      get_signals eps N amp nr_inputs idx mode (rand i) fuel)) = Except.ok ts) :
    get_multi_signals eps N amp idx m p nr_inputs mode rand fuel =
      Except.ok ((List.range nr_inputs).map (fun c => ts.map (fun t => t.1.getD c [])),
        (List.range nr_inputs).map (fun c => ts.map (fun t => t.2.1.getD c [])),
        (List.range nr_inputs).map (fun c => ts.map (fun t => t.2.2.getD c [])),
        get_repeat_signals
          ((List.range nr_inputs).map (fun c => ts.map (fun t => t.2.2.getD c []))) p) := by
  have h1 : get_multi_signals eps N amp idx m p nr_inputs mode rand fuel =
      match seqExcept ((List.range m).map (fun i =>
        get_signals eps N amp nr_inputs idx mode (rand i) fuel)) with
      | .error e => Except.error e
      | .ok ts =>
          Except.ok ((List.range nr_inputs).map (fun c => ts.map (fun t => t.1.getD c [])),
            (List.range nr_inputs).map (fun c => ts.map (fun t => t.2.1.getD c [])),
            (List.range nr_inputs).map (fun c => ts.map (fun t => t.2.2.getD c [])),
            get_repeat_signals
              ((List.range nr_inputs).map (fun c => ts.map (fun t => t.2.2.getD c []))) p) := by
    unfold get_multi_signals
    rfl
  rw [h1, hts]

/-- The single trial of the concrete multi-trial run. -/
theorem eval_trials : seqExcept ((List.range 1).map (fun i : ℕ =>
    get_signals (1 / 10) 4 4 4 (1, 1) "orthogonal" ((fun _ _ _ _ => (3 : ℝ) / 8) i) 1)) =
    Except.ok
      [(([[0, 4, 0, 0], [0, 4, 0, 0], [0, 4, 0, 0], [0, 4, 0, 0]] : List (List ℝ)),
        ([[3 * π / 4, 3 * π / 4, 3 * π / 4, 3 * π / 4],
          [5 * π / 4, 5 * π / 4, 5 * π / 4, 5 * π / 4],
          [7 * π / 4, 7 * π / 4, 7 * π / 4, 7 * π / 4],
          [9 * π / 4, 9 * π / 4, 9 * π / 4, 9 * π / 4]] : List (List ℝ)),
        ([[-1, -1, 1, 1], [-1, 1, 1, -1], [1, 1, -1, -1], [1, -1, -1, 1]] :
          List (List ℝ)))] := by
  rw [show List.range 1 = [0] from rfl]
  simp only [List.map, eval_get_signals]
  rfl

/-- Full evaluation of the concrete `get_multi_signals` run with `m = 1`,
`p = 2`, `nr_inputs = 4`, mode `'orthogonal'`. -/
theorem eval_get_multi :
    get_multi_signals (1 / 10) 4 4 (1, 1) 1 2 4 "orthogonal"
        (fun _ _ _ _ => (3 : ℝ) / 8) 1 =
      Except.ok
        ([[[0, 4, 0, 0]], [[0, 4, 0, 0]], [[0, 4, 0, 0]], [[0, 4, 0, 0]]],
         [[[3 * π / 4, 3 * π / 4, 3 * π / 4, 3 * π / 4]],
          [[5 * π / 4, 5 * π / 4, 5 * π / 4, 5 * π / 4]],
          [[7 * π / 4, 7 * π / 4, 7 * π / 4, 7 * π / 4]],
          [[9 * π / 4, 9 * π / 4, 9 * π / 4, 9 * π / 4]]],
         [[[-1, -1, 1, 1]], [[-1, 1, 1, -1]], [[1, 1, -1, -1]], [[1, -1, -1, 1]]],
         [[-1, -1, 1, 1, -1, -1, 1, 1], [-1, 1, 1, -1, -1, 1, 1, -1],
          [1, 1, -1, -1, 1, 1, -1, -1], [1, -1, -1, 1, 1, -1, -1, 1]]) := by
  rw [get_multi_signals_eval eval_trials]
  rfl

/-- C1 counterexample: the concrete orthogonal run is accepted by
`get_signals` (its base signal passes the cyclicity check), yet channel `1`'s
normalized time signal `[-1, 1, 1, -1]` has `|u[0] - u[1]| = 2 > eps = 1/10`,
so not every channel of an accepted signal set satisfies the invariant. -/
theorem signals_cyclicity_counterexample :
    acceptedU (get_signals (1 / 10) 4 4 4 (1, 1) "orthogonal"
        (fun _ _ _ => (3 : ℝ) / 8) 1) =
      some [[-1, -1, 1, 1], [-1, 1, 1, -1], [1, 1, -1, -1], [1, -1, -1, 1]] ∧
    ¬ (diffOf (([[-1, -1, 1, 1], [-1, 1, 1, -1], [1, 1, -1, -1], [1, -1, -1, 1]] :
        List (List ℝ)).getD 1 []) ≤ 1 / 10) := by
  constructor
  · rw [eval_get_signals]
    rfl
  · have h2 : diffOf (([[-1, -1, 1, 1], [-1, 1, 1, -1], [1, 1, -1, -1],
        [1, -1, -1, 1]] : List (List ℝ)).getD 1 []) = 2 := by
      simp only [diffOf, List.getD_cons_zero, List.getD_cons_succ]
      rw [show ((-1 : ℝ) - 1) = -2 by norm_num, abs_neg]
      exact abs_two
    rw [h2]
    norm_num

/-- Witness for the amended C1: in the concrete random run every channel
satisfies the invariant, and in the concrete orthogonal run channel `0`
does. -/
theorem signals_cyclicity_spec_witness :
    (∀ i, i < 4 → diffOf (([[-1, -1, 1, 1], [-1, -1, 1, 1], [-1, -1, 1, 1],
      [-1, -1, 1, 1]] : List (List ℝ)).getD i []) ≤ 1 / 10) ∧
    diffOf (([[-1, -1, 1, 1], [-1, 1, 1, -1], [1, 1, -1, -1], [1, -1, -1, 1]] :
      List (List ℝ)).getD 0 []) ≤ 1 / 10 :=
  ⟨(signals_cyclicity_spec (1 / 10) 4 4 4 (1, 1) (fun _ _ _ => 3 / 8) 1
      [[0, 4, 0, 0], [0, 4, 0, 0], [0, 4, 0, 0], [0, 4, 0, 0]]
      [[3 * π / 4, 3 * π / 4, 3 * π / 4, 3 * π / 4],
       [3 * π / 4, 3 * π / 4, 3 * π / 4, 3 * π / 4],
       [3 * π / 4, 3 * π / 4, 3 * π / 4, 3 * π / 4],
       [3 * π / 4, 3 * π / 4, 3 * π / 4, 3 * π / 4]]
      [[-1, -1, 1, 1], [-1, -1, 1, 1], [-1, -1, 1, 1], [-1, -1, 1, 1]]).1
      eval_get_signals_random,
   (signals_cyclicity_spec (1 / 10) 4 4 4 (1, 1) (fun _ _ _ => 3 / 8) 1
      [[0, 4, 0, 0], [0, 4, 0, 0], [0, 4, 0, 0], [0, 4, 0, 0]]
      [[3 * π / 4, 3 * π / 4, 3 * π / 4, 3 * π / 4],
       [5 * π / 4, 5 * π / 4, 5 * π / 4, 5 * π / 4],
       [7 * π / 4, 7 * π / 4, 7 * π / 4, 7 * π / 4],
       [9 * π / 4, 9 * π / 4, 9 * π / 4, 9 * π / 4]]
      [[-1, -1, 1, 1], [-1, 1, 1, -1], [1, 1, -1, -1], [1, -1, -1, 1]]).2
      eval_get_signals (by norm_num)⟩

/-- Witness for C2 at the concrete orthogonal run. -/
theorem orthogonal_mode_spec_witness :
    (∀ rand' : ℕ → ℕ → ℕ → ℝ, rand' 0 = (fun _ _ _ => (3 : ℝ) / 8) 0 →
      get_signals (1 / 10) 4 4 4 (1, 1) "orthogonal" rand' 1 =
        Except.ok
          ([[0, 4, 0, 0], [0, 4, 0, 0], [0, 4, 0, 0], [0, 4, 0, 0]],
           [[3 * π / 4, 3 * π / 4, 3 * π / 4, 3 * π / 4],
            [5 * π / 4, 5 * π / 4, 5 * π / 4, 5 * π / 4],
            [7 * π / 4, 7 * π / 4, 7 * π / 4, 7 * π / 4],
            [9 * π / 4, 9 * π / 4, 9 * π / 4, 9 * π / 4]],
           [[-1, -1, 1, 1], [-1, 1, 1, -1], [1, 1, -1, -1], [1, -1, -1, 1]])) ∧
    ∃ A0 P0,
      get_one_feasible_signal (1 / 10) 4 4 (1, 1) ((fun _ _ _ => (3 : ℝ) / 8) 0) 1 =
        Except.ok (A0, P0) ∧
      ∀ i, i < 4 →
        ([[0, 4, 0, 0], [0, 4, 0, 0], [0, 4, 0, 0],
          [0, 4, 0, 0]] : List (List ℝ)).getD i [] = A0 ∧
        ([[3 * π / 4, 3 * π / 4, 3 * π / 4, 3 * π / 4],
          [5 * π / 4, 5 * π / 4, 5 * π / 4, 5 * π / 4],
          [7 * π / 4, 7 * π / 4, 7 * π / 4, 7 * π / 4],
          [9 * π / 4, 9 * π / 4, 9 * π / 4, 9 * π / 4]] : List (List ℝ)).getD i [] =
          P0.map (fun x => x + 2 * π * i / ((4 : ℕ) : ℝ)) ∧
        (∀ k0, k0 < P0.length →
          (([[3 * π / 4, 3 * π / 4, 3 * π / 4, 3 * π / 4],
            [5 * π / 4, 5 * π / 4, 5 * π / 4, 5 * π / 4],
            [7 * π / 4, 7 * π / 4, 7 * π / 4, 7 * π / 4],
            [9 * π / 4, 9 * π / 4, 9 * π / 4, 9 * π / 4]] : List (List ℝ)).getD i []).getD k0 0 =
            P0.getD k0 0 + 2 * π * i / ((4 : ℕ) : ℝ)) ∧
        _get_normalization (get_time_signal (_get_complex_signal A0
          (P0.map (fun x => x + 2 * π * i / ((4 : ℕ) : ℝ))))) =
          some (([[-1, -1, 1, 1], [-1, 1, 1, -1], [1, 1, -1, -1],
            [1, -1, -1, 1]] : List (List ℝ)).getD i []) :=
  orthogonal_mode_spec (1 / 10) 4 4 4 (1, 1) (fun _ _ _ => 3 / 8) 1
    [[0, 4, 0, 0], [0, 4, 0, 0], [0, 4, 0, 0], [0, 4, 0, 0]]
    [[3 * π / 4, 3 * π / 4, 3 * π / 4, 3 * π / 4],
     [5 * π / 4, 5 * π / 4, 5 * π / 4, 5 * π / 4],
     [7 * π / 4, 7 * π / 4, 7 * π / 4, 7 * π / 4],
     [9 * π / 4, 9 * π / 4, 9 * π / 4, 9 * π / 4]]
    [[-1, -1, 1, 1], [-1, 1, 1, -1], [1, 1, -1, -1], [1, -1, -1, 1]]
    eval_get_signals

/-- Witness for C8 at the concrete run with `m = 1`, `p = 2`, `nr_inputs = 4`. -/
theorem multi_signals_shape_spec_witness :
    ([[[0, 4, 0, 0]], [[0, 4, 0, 0]], [[0, 4, 0, 0]],
      [[0, 4, 0, 0]]] : List (List (List ℝ))).length = 4 ∧
    ([[[3 * π / 4, 3 * π / 4, 3 * π / 4, 3 * π / 4]],
      [[5 * π / 4, 5 * π / 4, 5 * π / 4, 5 * π / 4]],
      [[7 * π / 4, 7 * π / 4, 7 * π / 4, 7 * π / 4]],
      [[9 * π / 4, 9 * π / 4, 9 * π / 4, 9 * π / 4]]] :
        List (List (List ℝ))).length = 4 ∧
    ([[[-1, -1, 1, 1]], [[-1, 1, 1, -1]], [[1, 1, -1, -1]],
      [[1, -1, -1, 1]]] : List (List (List ℝ))).length = 4 ∧
    ([[-1, -1, 1, 1, -1, -1, 1, 1], [-1, 1, 1, -1, -1, 1, 1, -1],
      [1, 1, -1, -1, 1, 1, -1, -1],
      [1, -1, -1, 1, 1, -1, -1, 1]] : List (List ℝ)).length = 4 ∧
    (∀ ch ∈ ([[[0, 4, 0, 0]], [[0, 4, 0, 0]], [[0, 4, 0, 0]],
        [[0, 4, 0, 0]]] : List (List (List ℝ))),
      ch.length = 1 ∧ ∀ s ∈ ch, s.length = 4) ∧
    (∀ ch ∈ ([[[3 * π / 4, 3 * π / 4, 3 * π / 4, 3 * π / 4]],
        [[5 * π / 4, 5 * π / 4, 5 * π / 4, 5 * π / 4]],
        [[7 * π / 4, 7 * π / 4, 7 * π / 4, 7 * π / 4]],
        [[9 * π / 4, 9 * π / 4, 9 * π / 4, 9 * π / 4]]] : List (List (List ℝ))),
      ch.length = 1 ∧ ∀ s ∈ ch, s.length = 4) ∧
    (∀ ch ∈ ([[[-1, -1, 1, 1]], [[-1, 1, 1, -1]], [[1, 1, -1, -1]],
        [[1, -1, -1, 1]]] : List (List (List ℝ))),
      ch.length = 1 ∧ ∀ s ∈ ch, s.length = 4) ∧
    (∀ r ∈ ([[-1, -1, 1, 1, -1, -1, 1, 1], [-1, 1, 1, -1, -1, 1, 1, -1],
        [1, 1, -1, -1, 1, 1, -1, -1],
        [1, -1, -1, 1, 1, -1, -1, 1]] : List (List ℝ)),
      r.length = 1 * 2 * 4) :=
  multi_signals_shape_spec (1 / 10) 4 4 (1, 1) 1 2 4 "orthogonal"
    (fun _ _ _ _ => 3 / 8) 1
    [[[0, 4, 0, 0]], [[0, 4, 0, 0]], [[0, 4, 0, 0]], [[0, 4, 0, 0]]]
    [[[3 * π / 4, 3 * π / 4, 3 * π / 4, 3 * π / 4]],
     [[5 * π / 4, 5 * π / 4, 5 * π / 4, 5 * π / 4]],
     [[7 * π / 4, 7 * π / 4, 7 * π / 4, 7 * π / 4]],
     [[9 * π / 4, 9 * π / 4, 9 * π / 4, 9 * π / 4]]]
    [[[-1, -1, 1, 1]], [[-1, 1, 1, -1]], [[1, 1, -1, -1]], [[1, -1, -1, 1]]]
    [[-1, -1, 1, 1, -1, -1, 1, 1], [-1, 1, 1, -1, -1, 1, 1, -1],
     [1, 1, -1, -1, 1, 1, -1, -1], [1, -1, -1, 1, 1, -1, -1, 1]]
    (by norm_num) (by norm_num) (by norm_num) (Or.inl rfl) eval_get_multi

end ExcitationSignal
